import Mathlib

/-!
Shallow embedding of the tag-safe Chinese line wrapper implemented in
`Mewgenics_CN_patch/scripts/auto_wrap_desc_zh.py`, together with theorems
checking the specification's claims about it.

Strings are modelled as `List Char`.  The two float score sentinels of the
source (`10**9`, with bonuses `-0.25` and `-0.2`) are modelled as integers
scaled by 4 (punctuation tier) and 5 (semantic-word tier); the scaling is
order-preserving and the original float arithmetic is exact at those
quarter/fifth granularities, so comparisons agree.  Python's `-1` sentinel
for "no result" is modelled by `Option`.  The `while` loops of the source
are modelled as fuel-indexed structural recursions; each is invoked with
fuel that provably dominates the loop's iteration count.
-/

set_option maxRecDepth 4000

namespace AutoWrap

/-- A token produced by `tokenize_preserving_tags`: its raw text and whether
it is a markup tag (bracket tag or brace placeholder). -/
structure Tok where
  text : List Char
  isTag : Bool
deriving DecidableEq, Repr

/-- Default token used to totalize list indexing. -/
def dTok : Tok := ⟨[], false⟩

/-- PRIORITY_SPLIT_WORDS from the source (line 17). -/
def PRIORITY_SPLIT_WORDS : List (List Char) :=
  ["并且".data, "同时".data, "然后".data, "因此".data, "因为".data,
   "等同于".data, "使得".data, "的".data]

/-- PUNCTUATION from the source (line 18). -/
def PUNCTUATION : List Char := "，。；！？、,.;!?:：".data

/-- Characters that may appear inside a bracket tag body. -/
def notBracket (c : Char) : Bool := !(c == '[' || c == ']')

/-- Characters that may appear inside a brace placeholder body. -/
def notBrace (c : Char) : Bool := !(c == '\x7b' || c == '\x7d')

/-- A single visible character as a token. -/
def charTok (c : Char) : Tok := ⟨[c], false⟩

/-- Tokenizer worker.  At each position a bracket tag `\x5b...\x5d` (nonempty
body free of brackets) or a brace placeholder (possibly empty body free of
braces) is recognised exactly as by the regex
`\[/?[^\[\]]+\]|\{[^{}]*\}` of line 20; otherwise the character becomes an
individual character token.  Fuel bounds the number of characters left. -/
def tokenizeAux : ℕ → List Char → List Tok
  | 0, _ => []
  | _ + 1, [] => []
  | fuel + 1, c :: rest =>
    if c = '[' then
      let content := rest.takeWhile notBracket
      let after := rest.dropWhile notBracket
      if content ≠ [] ∧ after.head? = some ']' then
        ⟨'[' :: (content ++ [']']), true⟩ :: tokenizeAux fuel after.tail
      else
        charTok c :: tokenizeAux fuel rest
    else if c = '\x7b' then
      let content := rest.takeWhile notBrace
      let after := rest.dropWhile notBrace
      if after.head? = some '\x7d' then
        ⟨'\x7b' :: (content ++ ['\x7d']), true⟩ :: tokenizeAux fuel after.tail
      else
        charTok c :: tokenizeAux fuel rest
    else
      charTok c :: tokenizeAux fuel rest

/-- `tokenize_preserving_tags` (source lines 38-52). -/
def tokenize_preserving_tags (s : List Char) : List Tok := tokenizeAux s.length s

/-- Characters ending the name group of an opening tag
(`[^\]/:]` of line 21). -/
def openNameStop (c : Char) : Bool := c == ']' || c == '/' || c == ':'

/-- `parse_open_tag_name` (source lines 55-57): matches
`^\[([^\]/:]+)(?::[^\]]*)?\]$` and returns the name, else the empty list. -/
def parse_open_tag_name (t : List Char) : List Char :=
  match t with
  | '[' :: rest =>
    let name := rest.takeWhile (fun c => !(openNameStop c))
    let after := rest.dropWhile (fun c => !(openNameStop c))
    if name = [] then []
    else
      match after with
      | [']'] => name
      | ':' :: s => if s.getLast? = some ']' ∧ ']' ∉ s.dropLast then name else []
      | _ => []
  | _ => []

/-- `parse_close_tag_name` (source lines 60-62): matches `^\[/([^\]]+)\]$`. -/
def parse_close_tag_name (t : List Char) : List Char :=
  match t with
  | '[' :: '/' :: rest =>
    let name := rest.takeWhile (fun c => !(c == ']'))
    let after := rest.dropWhile (fun c => !(c == ']'))
    if name ≠ [] ∧ after = [']'] then name else []
  | _ => []

/-- Inner scan of `find_protected_indices` (source lines 88-101): starting at
token `j`, look for a `)` character token immediately followed by a closing
tag with the given name, skipping embedded tags. -/
def findCloseParen (tokens : List Tok) (tagName : List Char) : ℕ → ℕ → Option (ℕ × ℕ)
  | 0, _ => none
  | fuel + 1, j =>
    if j + 1 < tokens.length then
      let tj := tokens.getD j dTok
      if tj.isTag then findCloseParen tokens tagName fuel (j + 1)
      else if tj.text = [')'] then
        let tnext := tokens.getD (j + 1) dTok
        if tnext.isTag ∧ parse_close_tag_name tnext.text = tagName then some (j, j + 1)
        else findCloseParen tokens tagName fuel (j + 1)
      else findCloseParen tokens tagName fuel (j + 1)
    else none

/-- Outer scan of `find_protected_indices` (source lines 65-111).  The
accumulator collects the protected token indices. -/
def fpiLoop (tokens : List Tok) : ℕ → ℕ → List ℕ → List ℕ
  | 0, _, acc => acc
  | fuel + 1, i, acc =>
    if i + 3 < tokens.length then
      let ti := tokens.getD i dTok
      if ti.isTag = false ∨ ti.text.take 2 = ['[', '/'] then fpiLoop tokens fuel (i + 1) acc
      else
        let tagName := parse_open_tag_name ti.text
        if tagName = [] then fpiLoop tokens fuel (i + 1) acc
        else
          let tn := tokens.getD (i + 1) dTok
          if tn.isTag ∨ tn.text ≠ ['('] then fpiLoop tokens fuel (i + 1) acc
          else
            match findCloseParen tokens tagName tokens.length (i + 2) with
            | some cp =>
              fpiLoop tokens fuel (cp.2 + 1) (acc ++ List.range' (i + 1) (cp.1 - i))
            | none => fpiLoop tokens fuel (i + 1) acc
    else acc

/-- `find_protected_indices` (source lines 65-111), as the list of protected
token indices. -/
def find_protected_indices (tokens : List Tok) : List ℕ :=
  fpiLoop tokens tokens.length 0 []

/-- `visible_token_indices` (source lines 114-115). -/
def visible_token_indices (tokens : List Tok) : List ℕ :=
  (List.range tokens.length).filter (fun i => !(tokens.getD i dTok).isTag)

/-- Is this token text a listed punctuation mark?  (A Python string is in the
set `PUNCTUATION` of characters exactly when it is a single listed char.) -/
def isPunctText (t : List Char) : Bool :=
  match t with
  | [c] => PUNCTUATION.contains c
  | _ => false

/-- Tier 1 of `choose_split_token` (source lines 132-148): scan visible
positions `start_vis ≤ i < window_end` for unprotected punctuation tokens,
keeping the strictly best score.  Scores are the source's float scores
scaled by 4: `4*dist + (if i+1 ≤ end_vis then -1 else 0)`, initial best
`4 * 10^9`. -/
def tier1 (tokens : List Tok) (vis prot : List ℕ) (start_vis end_vis window_end : ℕ) :
    Option ℕ × ℤ :=
  (List.range' start_vis (window_end - start_vis)).foldl
    (fun acc i =>
      let token_idx := vis.getD i 0
      if token_idx ∈ prot then acc
      else if isPunctText (tokens.getD token_idx dTok).text then
        let dist : ℤ := |((i : ℤ) + 1) - (end_vis : ℤ)|
        let score : ℤ := 4 * dist + (if i + 1 ≤ end_vis then -1 else 0)
        if score < acc.2 then (some token_idx, score) else acc
      else acc)
    (none, 4 * 10 ^ 9)

/-- All start positions at which `needle` occurs in `hay`, ascending: exactly
the positions visited by the source's `str.find` loop (lines 157-181). -/
def occurrences (hay needle : List Char) : List ℕ :=
  (List.range (hay.length + 1)).filter (fun p => needle.isPrefixOf (hay.drop p))

/-- One candidate step of tier 2 (source lines 162-181), for a word of length
`wlen` found at window-text position `pos`.  Scores are the source's float
scores scaled by 5: `5*|split_local - target_local| - (1 if at-or-before)`,
initial best `5 * 10^9`. -/
def tier2_step (vis prot : List ℕ) (start_vis target_local wlen : ℕ)
    (acc : Option ℕ × ℤ) (pos : ℕ) : Option ℕ × ℤ :=
  let split_local := pos + wlen
  let split_vis := start_vis + split_local - 1
  if split_vis < start_vis ∨ vis.length ≤ split_vis then acc
  else if vis.getD split_vis 0 ∈ prot then acc
  else
    let score : ℤ := 5 * |(split_local : ℤ) - (target_local : ℤ)| +
      (if split_local ≤ target_local then -1 else 0)
    if score < acc.2 then (some split_vis, score) else acc

/-- The visible text of the search window (source line 151). -/
def windowText (tokens : List Tok) (vis : List ℕ) (start_vis window_end : ℕ) : List Char :=
  ((List.range' start_vis (window_end - start_vis)).map
    (fun i => (tokens.getD (vis.getD i 0) dTok).text)).flatten

/-- Tier 2 of `choose_split_token` (source lines 150-184), parametrised by the
priority word list. -/
def tier2_words (words : List (List Char)) (tokens : List Tok) (vis prot : List ℕ)
    (start_vis end_vis window_end : ℕ) : Option ℕ × ℤ :=
  let visible_text := windowText tokens vis start_vis window_end
  words.foldl
    (fun acc w =>
      (occurrences visible_text w).foldl
        (tier2_step vis prot start_vis (end_vis - start_vis) w.length) acc)
    (none, 5 * 10 ^ 9)

/-- Tier 2 with the source's priority word list. -/
def tier2 (tokens : List Tok) (vis prot : List ℕ) (start_vis end_vis window_end : ℕ) :
    Option ℕ × ℤ :=
  tier2_words PRIORITY_SPLIT_WORDS tokens vis prot start_vis end_vis window_end

/-- `choose_split_token` (source lines 118-200): returns the token index after
which to break, or `none` for the source's `-1`. -/
def choose_split_token (tokens : List Tok) (vis : List ℕ) (start_vis max_len : ℕ)
    (prot : List ℕ) : Option ℕ :=
  let end_vis := min vis.length (start_vis + max_len)
  if vis.length ≤ end_vis then none
  else
    let window_end := min vis.length (end_vis + 8)
    match (tier1 tokens vis prot start_vis end_vis window_end).1 with
    | some idx => some idx
    | none =>
      match (tier2 tokens vis prot start_vis end_vis window_end).1 with
      | some v => some (vis.getD v 0)
      | none =>
        match ((List.range' (start_vis + 1) (end_vis - 1 - start_vis)).reverse).find?
            (fun i => !(prot.contains (vis.getD i 0))) with
        | some i => some (vis.getD i 0)
        | none =>
          match (List.range' end_vis (vis.length - end_vis)).find?
              (fun i => !(prot.contains (vis.getD i 0))) with
          | some i => some (vis.getD i 0)
          | none => none

/-- The `while` loop of `wrap_segment` (source lines 217-232), accumulating
the token indices after which a break is inserted. -/
def wrapLoop (tokens : List Tok) (vis prot : List ℕ) (max_len : ℕ) :
    ℕ → ℕ → List ℕ → List ℕ
  | 0, _, acc => acc
  | fuel + 1, start_vis, acc =>
    if start_vis + max_len < vis.length then
      match choose_split_token tokens vis start_vis max_len prot with
      | none => acc
      | some split =>
        let acc' := acc ++ [split]
        match vis.findIdx? (fun x => x == split) with
        | none => acc'
        | some i =>
          if i + 1 ≤ start_vis then acc'
          else wrapLoop tokens vis prot max_len fuel (i + 1) acc'
    else acc

/-- The set of break positions `insert_after` computed by `wrap_segment`
(source lines 203-232); empty exactly when the source returns the segment
unchanged. -/
def wrap_breaks (segment : List Char) (max_len : ℕ) : List ℕ :=
  if segment = [] then []
  else
    let tokens := tokenize_preserving_tags segment
    let prot := find_protected_indices tokens
    let vis := visible_token_indices tokens
    if vis.length ≤ max_len then []
    else wrapLoop tokens vis prot max_len (vis.length + 1) 0 []

/-- Output assembly of `wrap_segment` (source lines 237-243): emit each
token's text, inserting a newline after every token index in `breaks`. -/
def assembleFrom (breaks : List ℕ) : ℕ → List Tok → List Char
  | _, [] => []
  | idx, t :: ts =>
    t.text ++ (if idx ∈ breaks then ['\n'] else []) ++ assembleFrom breaks (idx + 1) ts

/-- `wrap_segment` (source lines 203-243). -/
def wrap_segment (segment : List Char) (max_len : ℕ) : List Char :=
  let breaks := wrap_breaks segment max_len
  if breaks = [] then segment
  else assembleFrom breaks 0 (tokenize_preserving_tags segment)

/-- Python `text.split("\n")`. -/
def splitNl : List Char → List (List Char)
  | [] => [[]]
  | c :: rest =>
    if c = '\n' then [] :: splitNl rest
    else
      match splitNl rest with
      | [] => [[c]]
      | h :: t => (c :: h) :: t

/-- Python `"\n".join(parts)`. -/
def joinNl : List (List Char) → List Char
  | [] => []
  | [p] => p
  | p :: rest => p ++ '\n' :: joinNl rest

/-- `wrap_zh_desc_text` (source lines 246-254): wrap each newline-delimited
segment independently and reconstitute; the flag reports whether anything
changed. -/
def wrap_zh_desc_text (text : List Char) (max_len : ℕ) : List Char × Bool :=
  if text = [] then (text, false)
  else
    let wrapped := joinNl ((splitNl text).map (fun p => wrap_segment p max_len))
    (wrapped, decide (wrapped ≠ text))

/-! ### Tokenizer lemmas -/

/-- Concatenating the token texts of a tokenization reproduces the input. -/
theorem tokenizeAux_join : ∀ (fuel : ℕ) (cs : List Char), cs.length ≤ fuel →
    ((tokenizeAux fuel cs).map Tok.text).flatten = cs := by
  intro fuel
  induction fuel with
  | zero =>
    intro cs h
    have : cs = [] := List.length_eq_zero.mp (Nat.le_zero.mp h)
    simp [this, tokenizeAux]
  | succ fuel ih =>
    intro cs h
    match cs with
    | [] => simp [tokenizeAux]
    | c :: rest =>
      have hrest : rest.length ≤ fuel := by
        simpa using Nat.succ_le_succ_iff.mp (by simpa using h)
      have hsplitB : rest.takeWhile notBracket ++ rest.dropWhile notBracket = rest :=
        List.takeWhile_append_dropWhile notBracket rest
      have hsplitC : rest.takeWhile notBrace ++ rest.dropWhile notBrace = rest :=
        List.takeWhile_append_dropWhile notBrace rest
      simp only [tokenizeAux]
      split
      · next hc =>
        split
        · next hok =>
          obtain ⟨-, hhead⟩ := hok
          cases hafter : rest.dropWhile notBracket with
          | nil => rw [hafter] at hhead; simp at hhead
          | cons a tl =>
            rw [hafter] at hhead
            have ha : a = ']' := by simpa using hhead
            have h2 : rest.takeWhile notBracket ++ a :: tl = rest := by
              rw [← hafter]; exact hsplitB
            have htl : tl.length ≤ fuel := by
              have h3 := congrArg List.length h2
              simp only [List.length_append, List.length_cons] at h3
              omega
            rw [ha] at h2
            have hrec := ih tl htl
            simp only [List.tail_cons, List.map_cons, List.flatten_cons, hrec, hc,
              List.cons_append, List.append_assoc, List.singleton_append, List.nil_append, h2]
        · simp [charTok, ih rest hrest]
      · split
        · next hc =>
          split
          · next hhead =>
            cases hafter : rest.dropWhile notBrace with
            | nil => rw [hafter] at hhead; simp at hhead
            | cons a tl =>
              rw [hafter] at hhead
              have ha : a = '\x7d' := by simpa using hhead
              have h2 : rest.takeWhile notBrace ++ a :: tl = rest := by
                rw [← hafter]; exact hsplitC
              have htl : tl.length ≤ fuel := by
                have h3 := congrArg List.length h2
                simp only [List.length_append, List.length_cons] at h3
                omega
              rw [ha] at h2
              have hrec := ih tl htl
              simp only [List.tail_cons, List.map_cons, List.flatten_cons, hrec, hc,
                List.cons_append, List.append_assoc, List.singleton_append, List.nil_append, h2]
          · simp [charTok, ih rest hrest]
        · simp [charTok, ih rest hrest]

/-- `tokenize_preserving_tags` is lossless: the token texts concatenate back
to the input. -/
theorem tokenize_join (s : List Char) :
    ((tokenize_preserving_tags s).map Tok.text).flatten = s :=
  tokenizeAux_join s.length s le_rfl

/-- Every token has nonempty text, and every non-tag token is a single
character. -/
theorem tokenizeAux_shape : ∀ (fuel : ℕ) (cs : List Char) (t : Tok),
    t ∈ tokenizeAux fuel cs → t.text ≠ [] ∧ (t.isTag = false → ∃ c, t.text = [c]) := by
  intro fuel
  induction fuel with
  | zero => intro cs t ht; simp [tokenizeAux] at ht
  | succ fuel ih =>
    intro cs t ht
    match cs with
    | [] => simp [tokenizeAux] at ht
    | c :: rest =>
      simp only [tokenizeAux] at ht
      split at ht
      · split at ht
        · rcases List.mem_cons.mp ht with h | h
          · subst h; refine ⟨by simp, ?_⟩; intro hfalse; simp at hfalse
          · exact ih _ t h
        · rcases List.mem_cons.mp ht with h | h
          · subst h; exact ⟨by simp [charTok], fun _ => ⟨c, rfl⟩⟩
          · exact ih _ t h
      · split at ht
        · split at ht
          · rcases List.mem_cons.mp ht with h | h
            · subst h; refine ⟨by simp, ?_⟩; intro hfalse; simp at hfalse
            · exact ih _ t h
          · rcases List.mem_cons.mp ht with h | h
            · subst h; exact ⟨by simp [charTok], fun _ => ⟨c, rfl⟩⟩
            · exact ih _ t h
        · rcases List.mem_cons.mp ht with h | h
          · subst h; exact ⟨by simp [charTok], fun _ => ⟨c, rfl⟩⟩
          · exact ih _ t h

/-- Shape facts transported to `tokenize_preserving_tags`. -/
theorem tokenize_shape (s : List Char) (t : Tok) (ht : t ∈ tokenize_preserving_tags s) :
    t.text ≠ [] ∧ (t.isTag = false → ∃ c, t.text = [c]) :=
  tokenizeAux_shape s.length s t ht

/-- Every character of every token of `tokenize_preserving_tags s` is a
character of `s`. -/
theorem tokenize_text_subset (s : List Char) (t : Tok)
    (ht : t ∈ tokenize_preserving_tags s) (c : Char) (hc : c ∈ t.text) : c ∈ s := by
  have : c ∈ ((tokenize_preserving_tags s).map Tok.text).flatten :=
    List.mem_flatten.mpr ⟨t.text, List.mem_map.mpr ⟨t, ht, rfl⟩, hc⟩
  rwa [tokenize_join] at this

/-! ### Assembly lemmas -/

/-- Removing newlines from an assembled segment gives the newline-free part
of the token texts. -/
theorem filter_assembleFrom (breaks : List ℕ) : ∀ (idx : ℕ) (ts : List Tok),
    (assembleFrom breaks idx ts).filter (fun c => !(c == '\n')) =
      ((ts.map Tok.text).flatten).filter (fun c => !(c == '\n')) := by
  intro idx ts
  induction ts generalizing idx with
  | nil => rfl
  | cons t ts ih =>
    simp only [assembleFrom, List.map_cons, List.flatten_cons, List.filter_append]
    rw [ih (idx + 1)]
    have : (if idx ∈ breaks then ['\n'] else []).filter (fun c => !(c == '\n')) = [] := by
      split <;> simp
    rw [this]
    simp

/-- `wrap_segment` only inserts newline characters: removing all newlines
from its output gives the input with all newlines removed. -/
theorem wrap_segment_filter (s : List Char) (L : ℕ) :
    (wrap_segment s L).filter (fun c => !(c == '\n')) = s.filter (fun c => !(c == '\n')) := by
  simp only [wrap_segment]
  split
  · rfl
  · rw [filter_assembleFrom, tokenize_join]

/-! ### Newline splitting lemmas -/

theorem splitNl_ne_nil : ∀ l : List Char, splitNl l ≠ [] := by
  intro l
  induction l with
  | nil => simp [splitNl]
  | cons c rest ih =>
    simp only [splitNl]
    split
    · simp
    · cases h : splitNl rest with
      | nil => simp
      | cons a t => simp

/-- Concatenating the segments of `splitNl` gives the input minus its
newlines. -/
theorem flatten_splitNl : ∀ l : List Char,
    (splitNl l).flatten = l.filter (fun c => !(c == '\n')) := by
  intro l
  induction l with
  | nil => rfl
  | cons c rest ih =>
    simp only [splitNl]
    split
    · next hc => subst hc; simpa using ih
    · next hc =>
      cases h : splitNl rest with
      | nil => exact absurd h (splitNl_ne_nil rest)
      | cons a t =>
        rw [h] at ih
        simp only [List.flatten_cons, List.cons_append, List.filter_cons]
        have : (c == '\n') = false := by simpa using hc
        rw [this]
        simpa using ih

/-- No segment of `splitNl` contains a newline. -/
theorem splitNl_no_nl : ∀ (l : List Char) (p : List Char), p ∈ splitNl l → '\n' ∉ p := by
  intro l
  induction l with
  | nil => intro p hp; simp [splitNl] at hp; simp [hp]
  | cons c rest ih =>
    intro p hp
    simp only [splitNl] at hp
    split at hp
    · rcases List.mem_cons.mp hp with h | h
      · simp [h]
      · exact ih p h
    · next hc =>
      cases h : splitNl rest with
      | nil => exact absurd h (splitNl_ne_nil rest)
      | cons a t =>
        rw [h] at hp
        rcases List.mem_cons.mp hp with h' | h'
        · subst h'
          intro hmem
          rcases List.mem_cons.mp hmem with h'' | h''
          · exact hc h''.symm
          · exact ih a (h ▸ List.mem_cons_self a t) h''
        · exact ih p (h ▸ List.mem_cons.mpr (Or.inr h'))

/-- `joinNl` is a left inverse of `splitNl`. -/
theorem joinNl_splitNl : ∀ l : List Char, joinNl (splitNl l) = l := by
  intro l
  induction l with
  | nil => rfl
  | cons c rest ih =>
    simp only [splitNl]
    split
    · next hc =>
      subst hc
      cases h : splitNl rest with
      | nil => exact absurd h (splitNl_ne_nil rest)
      | cons a t =>
        rw [h] at ih
        show ([] : List Char) ++ '\n' :: joinNl (a :: t) = '\n' :: rest
        rw [ih]
        rfl
    · cases h : splitNl rest with
      | nil => exact absurd h (splitNl_ne_nil rest)
      | cons a t =>
        rw [h] at ih
        show joinNl ((c :: a) :: t) = c :: rest
        cases t with
        | nil =>
          show (c :: a) = c :: rest
          simp only [joinNl] at ih
          rw [ih]
        | cons b t' =>
          show (c :: a) ++ '\n' :: joinNl (b :: t') = c :: rest
          have hj2 : joinNl (a :: b :: t') = a ++ '\n' :: joinNl (b :: t') := rfl
          rw [hj2] at ih
          rw [List.cons_append, ih]

/-- Splitting distributes over an appended newline. -/
theorem splitNl_append_nl : ∀ a b : List Char, splitNl (a ++ '\n' :: b) = splitNl a ++ splitNl b := by
  intro a b
  induction a with
  | nil => simp [splitNl]
  | cons c a ih =>
    by_cases hc : c = '\n'
    · subst hc
      simp [splitNl, ih]
    · simp only [List.cons_append, splitNl, if_neg hc, List.append_eq]
      rw [ih]
      cases h : splitNl a with
      | nil => exact absurd h (splitNl_ne_nil a)
      | cons x t => simp

/-- Splitting a `joinNl` of a nonempty list of parts yields the concatenation
of the splittings of the parts. -/
theorem splitNl_joinNl : ∀ xs : List (List Char), xs ≠ [] →
    splitNl (joinNl xs) = (xs.map splitNl).flatten := by
  intro xs
  induction xs with
  | nil => intro h; exact absurd rfl h
  | cons p rest ih =>
    intro _
    cases rest with
    | nil => simp [joinNl]
    | cons q rest' =>
      have : joinNl (p :: q :: rest') = p ++ '\n' :: joinNl (q :: rest') := rfl
      rw [this, splitNl_append_nl, ih (by simp)]
      simp

/-- The number of segments is one more than the number of newlines. -/
theorem length_splitNl : ∀ l : List Char, (splitNl l).length = l.count '\n' + 1 := by
  intro l
  induction l with
  | nil => rfl
  | cons c rest ih =>
    simp only [splitNl]
    split
    · next hc => subst hc; simp [List.count_cons, ih]
    · next hc =>
      cases h : splitNl rest with
      | nil => exact absurd h (splitNl_ne_nil rest)
      | cons a t =>
        rw [h] at ih
        simp only [List.length_cons] at ih ⊢
        rw [List.count_cons]
        simp only [ih]
        have h4 : ('\n' == c) = false := by
          simp only [beq_eq_false_iff_ne, ne_eq]
          exact fun hh => hc hh.symm
        simp [h4, hc]

/-- Filtering out newlines distributes over `joinNl`. -/
theorem filter_joinNl : ∀ xs : List (List Char),
    (joinNl xs).filter (fun c => !(c == '\n')) =
      ((xs.map (List.filter (fun c => !(c == '\n')))).flatten) := by
  intro xs
  induction xs with
  | nil => rfl
  | cons p rest ih =>
    cases rest with
    | nil => simp [joinNl]
    | cons q rest' =>
      have : joinNl (p :: q :: rest') = p ++ '\n' :: joinNl (q :: rest') := rfl
      rw [this]
      simp only [List.filter_append, List.filter_cons]
      norm_num
      rw [ih]
      simp

/-- C1: Round-trip reconstruction.  For every input text `T` and maximum
length `L`, the output of the wrapper with all newline characters removed
equals `T` with all newline characters removed: the wrapper changes the input
only by inserting newline characters. -/
theorem C1_round_trip (T : List Char) (L : ℕ) :
    ((wrap_zh_desc_text T L).1).filter (fun c => !(c == '\n')) =
      T.filter (fun c => !(c == '\n')) := by
  unfold wrap_zh_desc_text
  split
  · rfl
  · simp only
    rw [filter_joinNl, List.map_map]
    have hmap : (splitNl T).map (List.filter (fun c => !(c == '\n')) ∘ fun p => wrap_segment p L) =
        (splitNl T).map (List.filter (fun c => !(c == '\n'))) := by
      apply List.map_congr_left
      intro p _
      exact wrap_segment_filter p L
    rw [hmap, ← List.filter_flatten, flatten_splitNl]
    rw [List.filter_filter]
    apply List.filter_congr
    intro c _
    simp

/-! ### No-op below threshold -/

/-- If a segment's visible-token count is at most the maximum length, no
breaks are computed. -/
theorem wrap_breaks_short (s : List Char) (L : ℕ)
    (h : (visible_token_indices (tokenize_preserving_tags s)).length ≤ L) :
    wrap_breaks s L = [] := by
  simp only [wrap_breaks]
  split
  · rfl
  · simp [h]

/-- If a segment's visible-token count is at most the maximum length,
`wrap_segment` returns it unchanged. -/
theorem wrap_segment_short (s : List Char) (L : ℕ)
    (h : (visible_token_indices (tokenize_preserving_tags s)).length ≤ L) :
    wrap_segment s L = s := by
  simp [wrap_segment, wrap_breaks_short s L h]

/-- C2 counterexample: the input `"[a\nb]"` tokenizes (as a whole) to a single
bracket tag, so its visible-character count is `0 ≤ 1`, yet the wrapper with
maximum length `1` does not return it unchanged (the newline makes the
wrapper split it into segments whose brackets are no longer recognised as a
tag). -/
theorem C2_counterexample :
    (visible_token_indices (tokenize_preserving_tags "[a\nb]".data)).length = 0 ∧
      0 < 1 ∧ (wrap_zh_desc_text "[a\nb]".data 1).1 ≠ "[a\nb]".data := by
  decide

/-- C2 (amended): if every newline-delimited segment of the input has
visible-character count at most `L`, the wrapper returns the input unchanged
(and reports no change).  For newline-free inputs this is exactly the
original claim. -/
theorem C2_no_op_below_threshold (T : List Char) (L : ℕ)
    (h : ∀ p ∈ splitNl T, (visible_token_indices (tokenize_preserving_tags p)).length ≤ L) :
    wrap_zh_desc_text T L = (T, false) := by
  unfold wrap_zh_desc_text
  split
  · next ht => rw [ht]
  · simp only
    have hmap : (splitNl T).map (fun p => wrap_segment p L) = (splitNl T).map id :=
      List.map_congr_left (fun p hp => wrap_segment_short p L (h p hp))
    rw [hmap, List.map_id, joinNl_splitNl]
    simp

/-- Witness for the amended C2 at a concrete input. -/
theorem C2_no_op_below_threshold_witness :
    wrap_zh_desc_text "abc\nde".data 3 = ("abc\nde".data, false) :=
  C2_no_op_below_threshold _ 3 (by decide)

/-! ### The chooser only returns unprotected visible positions -/

/-- A fold preserves any invariant preserved by its step function. -/
theorem foldl_preserve {α β : Type} (P : β → Prop) :
    ∀ (l : List α) (f : β → α → β) (b : β),
      (∀ b' a, a ∈ l → P b' → P (f b' a)) → P b → P (l.foldl f b) := by
  intro l
  induction l with
  | nil => intro f b _ hb; exact hb
  | cons x xs ih =>
    intro f b hstep hb
    exact ih f (f b x) (fun b' a ha hb' => hstep b' a (List.mem_cons.mpr (Or.inr ha)) hb')
      (hstep b x (List.mem_cons_self x xs) hb)

/-- An element produced by `getD` at a valid index is in the list. -/
theorem getD_mem {α : Type} {l : List α} {i : ℕ} {d : α} (h : i < l.length) : l.getD i d ∈ l := by
  rw [List.getD_eq_getElem l d h]
  exact List.getElem_mem h

/-- Any index returned by tier 1 comes from a window position and is not
protected. -/
theorem tier1_some_spec (tokens : List Tok) (vis prot : List ℕ) (s e w idx : ℕ)
    (h : (tier1 tokens vis prot s e w).1 = some idx) :
    ∃ i, i ∈ List.range' s (w - s) ∧ idx = vis.getD i 0 ∧ idx ∉ prot ∧
      isPunctText (tokens.getD (vis.getD i 0) dTok).text = true := by
  revert h
  suffices hs : ∀ j, (tier1 tokens vis prot s e w).1 = some j →
      ∃ i, i ∈ List.range' s (w - s) ∧ j = vis.getD i 0 ∧ j ∉ prot ∧
        isPunctText (tokens.getD (vis.getD i 0) dTok).text = true by
    exact hs idx
  unfold tier1
  apply foldl_preserve
    (fun acc : Option ℕ × ℤ => ∀ j, acc.1 = some j →
      ∃ i, i ∈ List.range' s (w - s) ∧ j = vis.getD i 0 ∧ j ∉ prot ∧
        isPunctText (tokens.getD (vis.getD i 0) dTok).text = true)
  · intro b a ha hb
    dsimp only
    split_ifs with h1 h2 h3 h4 <;>
      first
        | exact hb
        | (intro j hj
           have hj' : vis.getD a 0 = j := by simpa using hj
           subst hj'
           exact ⟨a, ha, rfl, h1, h2⟩)
  · intro j hj
    simp at hj

/-- Any window position returned by tier 2 is at or after the cursor, in
range, and unprotected. -/
theorem tier2_some_spec (words : List (List Char)) (tokens : List Tok) (vis prot : List ℕ)
    (s e w v : ℕ) (h : (tier2_words words tokens vis prot s e w).1 = some v) :
    s ≤ v ∧ v < vis.length ∧ vis.getD v 0 ∉ prot := by
  revert h
  suffices hs : ∀ j, (tier2_words words tokens vis prot s e w).1 = some j →
      s ≤ j ∧ j < vis.length ∧ vis.getD j 0 ∉ prot by
    exact hs v
  simp only [tier2_words]
  apply foldl_preserve
    (fun acc : Option ℕ × ℤ => ∀ j, acc.1 = some j →
      s ≤ j ∧ j < vis.length ∧ vis.getD j 0 ∉ prot)
  · intro b a _ hb
    apply foldl_preserve
      (fun acc : Option ℕ × ℤ => ∀ j, acc.1 = some j →
        s ≤ j ∧ j < vis.length ∧ vis.getD j 0 ∉ prot)
    · intro b' p _ hb'
      simp only [tier2_step]
      split_ifs with g1 g2 g3 g4 <;>
        first
          | exact hb'
          | (intro j hj
             have hj' : s + (p + a.length) - 1 = j := by simpa using hj
             subst hj'
             push_neg at g1
             exact ⟨g1.1, by omega, g2⟩)
    · exact hb
  · intro j hj
    simp at hj

/-- Any index returned by `choose_split_token` is unprotected and is the
token index of a visible position at or after the cursor. -/
theorem choose_some_spec (tokens : List Tok) (vis prot : List ℕ) (s L t : ℕ)
    (h : choose_split_token tokens vis s L prot = some t) :
    t ∉ prot ∧ ∃ i, s ≤ i ∧ i < vis.length ∧ t = vis.getD i 0 := by
  simp only [choose_split_token] at h
  split at h
  · exact absurd h (by simp)
  · next hlen =>
    have he_lt : min vis.length (s + L) < vis.length := Nat.lt_of_not_le hlen
    have hw_le : min vis.length (min vis.length (s + L) + 8) ≤ vis.length := Nat.min_le_left _ _
    split at h
    · next idx heq1 =>
      obtain ⟨i, hir, hidx, hprot, -⟩ := tier1_some_spec tokens vis prot _ _ _ idx heq1
      have hb := List.mem_range'_1.mp hir
      injection h with h'
      subst h'
      exact ⟨hidx ▸ hprot, i, hb.1, by omega, hidx⟩
    · next heq1 =>
      split at h
      · next v heq2 =>
        obtain ⟨hv1, hv2, hv3⟩ := tier2_some_spec _ tokens vis prot _ _ _ v heq2
        injection h with h'
        subst h'
        exact ⟨hv3, v, hv1, hv2, rfl⟩
      · next heq2 =>
        split at h
        · next i heq3 =>
          have hp := List.find?_some heq3
          have hm := List.mem_of_find?_eq_some heq3
          rw [List.mem_reverse] at hm
          have hb := List.mem_range'_1.mp hm
          have hprot : vis.getD i 0 ∉ prot := by
            simpa using hp
          injection h with h'
          subst h'
          refine ⟨hprot, i, by omega, by omega, rfl⟩
        · next heq3 =>
          split at h
          · next i heq4 =>
            have hp := List.find?_some heq4
            have hm := List.mem_of_find?_eq_some heq4
            have hb := List.mem_range'_1.mp hm
            have hprot : vis.getD i 0 ∉ prot := by
              simpa using hp
            injection h with h'
            subst h'
            refine ⟨hprot, i, by omega, by omega, rfl⟩
          · exact absurd h (by simp)

/-- Every break accumulated by the wrap loop is unprotected and is the token
index of some visible position. -/
theorem wrapLoop_spec (tokens : List Tok) (vis prot : List ℕ) (L : ℕ) :
    ∀ (fuel start : ℕ) (acc : List ℕ),
      (∀ x ∈ acc, x ∉ prot ∧ ∃ i, i < vis.length ∧ x = vis.getD i 0) →
      ∀ x ∈ wrapLoop tokens vis prot L fuel start acc,
        x ∉ prot ∧ ∃ i, i < vis.length ∧ x = vis.getD i 0 := by
  intro fuel
  induction fuel with
  | zero =>
    intro start acc hacc x hx
    simp only [wrapLoop] at hx
    exact hacc x hx
  | succ fuel ih =>
    intro start acc hacc x hx
    simp only [wrapLoop] at hx
    split at hx
    · cases hch : choose_split_token tokens vis start L prot with
      | none =>
        simp only [hch] at hx
        exact hacc x hx
      | some split =>
        simp only [hch] at hx
        obtain ⟨hsp, i, -, hilen, hieq⟩ := choose_some_spec tokens vis prot start L split hch
        have hacc' : ∀ y ∈ acc ++ [split],
            y ∉ prot ∧ ∃ i, i < vis.length ∧ y = vis.getD i 0 := by
          intro y hy
          rcases List.mem_append.mp hy with hmem | hmem
          · exact hacc y hmem
          · have hys : y = split := by simpa using hmem
            subst hys
            exact ⟨hsp, i, hilen, hieq⟩
        cases hf : vis.findIdx? (fun v => v == split) with
        | none =>
          simp only [hf] at hx
          exact hacc' x hx
        | some k =>
          simp only [hf] at hx
          split at hx
          · exact hacc' x hx
          · exact ih _ _ hacc' x hx
    · exact hacc x hx

/-- Membership in `visible_token_indices` characterised. -/
theorem mem_visible_token_indices (tokens : List Tok) (x : ℕ) :
    x ∈ visible_token_indices tokens ↔
      x < tokens.length ∧ (tokens.getD x dTok).isTag = false := by
  simp [visible_token_indices, List.mem_filter, List.mem_range]

/-- Every break computed by `wrap_segment` is a visible (non-tag) token index
and is not protected. -/
theorem wrap_breaks_visible (s : List Char) (L : ℕ) (x : ℕ) (hx : x ∈ wrap_breaks s L) :
    x ∈ visible_token_indices (tokenize_preserving_tags s) ∧
      x ∉ find_protected_indices (tokenize_preserving_tags s) := by
  simp only [wrap_breaks] at hx
  split at hx
  · simp at hx
  · split at hx
    · simp at hx
    · have hspec := wrapLoop_spec (tokenize_preserving_tags s)
        (visible_token_indices (tokenize_preserving_tags s))
        (find_protected_indices (tokenize_preserving_tags s)) L _ _ []
        (by intro y hy; simp at hy) x hx
      obtain ⟨hprot, i, hi, hx_eq⟩ := hspec
      exact ⟨hx_eq ▸ getD_mem hi, hprot⟩

/-- C3 counterexample input: it contains the construct
`[y]( ... )[/y]` (opening tag at token 2, `(` at token 3, matching `)` at
token 8, closing tag at token 9), but an earlier overlapping construct
rooted at `[x]` consumes the scan first, so the `[y]` span is not protected
and a break lands inside it. -/
def c3input : List Char := "[x]([y](c)[/x]c)[/y]".data

/-- C3 counterexample: the input contains an opening tag `[y]` immediately
followed by `(`, a later `)` immediately followed by the matching closing
tag `[/y]`, the maximum length 1 is positive and smaller than the argument's
visible length 3, yet the wrapper inserts a break after token 7, strictly
between the `(` (token 3) and the `)` (token 8). -/
theorem C3_counterexample :
    (tokenize_preserving_tags c3input).getD 2 dTok = ⟨"[y]".data, true⟩ ∧
      (tokenize_preserving_tags c3input).getD 3 dTok = ⟨['('], false⟩ ∧
      (tokenize_preserving_tags c3input).getD 8 dTok = ⟨[')'], false⟩ ∧
      (tokenize_preserving_tags c3input).getD 9 dTok = ⟨"[/y]".data, true⟩ ∧
      parse_open_tag_name "[y]".data = "y".data ∧
      parse_close_tag_name "[/y]".data = "y".data ∧
      7 ∈ wrap_breaks c3input 1 ∧
      (wrap_zh_desc_text c3input 1).1 = "[x]([y](c)[/x]c\n)[/y]".data := by
  decide

/-- C3 (amended): the wrapper never inserts a break at a token index the
protected-span detector marked protected; in particular, whenever the span
from a construct's `(` through its `)` is actually marked (as when the
construct is reached by the scan, e.g. when it stands alone), no break falls
between the parentheses. -/
theorem C3_protected_integrity (s : List Char) (L : ℕ) (x : ℕ)
    (hx : x ∈ find_protected_indices (tokenize_preserving_tags s)) :
    x ∉ wrap_breaks s L := fun hmem => (wrap_breaks_visible s L x hmem).2 hx

/-- Witness for the amended C3 at a concrete standalone construct: index 1
(the `(`) is protected and is not broken. -/
theorem C3_protected_integrity_witness :
    1 ∈ find_protected_indices (tokenize_preserving_tags "[x](abcdefgh)[/x]".data) ∧
      1 ∉ wrap_breaks "[x](abcdefgh)[/x]".data 1 :=
  ⟨by decide, C3_protected_integrity _ 1 1 (by decide)⟩

/-- C4: Tag integrity.  Every inserted break sits immediately after a visible
(non-tag) token: each break index is a valid token index whose token is not
a tag, so no break ever falls inside a tag's delimiters or immediately after
a tag token. -/
theorem C4_tag_integrity (s : List Char) (L : ℕ) (x : ℕ) (hx : x ∈ wrap_breaks s L) :
    x < (tokenize_preserving_tags s).length ∧
      ((tokenize_preserving_tags s).getD x dTok).isTag = false :=
  (mem_visible_token_indices _ x).mp (wrap_breaks_visible s L x hx).1

/-- Witness for C4 at a concrete input: token 2 (the full-width comma) gets
a break and is a non-tag token. -/
theorem C4_tag_integrity_witness :
    2 ∈ wrap_breaks "ab，cdefg".data 4 ∧
      (2 < (tokenize_preserving_tags "ab，cdefg".data).length ∧
        ((tokenize_preserving_tags "ab，cdefg".data).getD 2 dTok).isTag = false) :=
  ⟨by decide, C4_tag_integrity _ 4 2 (by decide)⟩

/-! ### Existing-newline preservation -/

/-- The empty segment is returned unchanged. -/
theorem wrap_segment_nil (L : ℕ) : wrap_segment [] L = [] := rfl

/-- The output's newline-split decomposes as the concatenation, segment by
segment, of each wrapped segment's newline-split. -/
theorem wrap_parts_decompose (T : List Char) (L : ℕ) :
    splitNl ((wrap_zh_desc_text T L).1) =
      ((splitNl T).map (fun p => splitNl (wrap_segment p L))).flatten := by
  unfold wrap_zh_desc_text
  split
  · next hT =>
    subst hT
    show splitNl [] = ((splitNl []).map (fun p => splitNl (wrap_segment p L))).flatten
    simp [splitNl, wrap_segment_nil]
  · simp only
    rw [splitNl_joinNl _ (fun hmap => splitNl_ne_nil T (List.map_eq_nil_iff.mp hmap)),
      List.map_map]
    rfl

/-- A list of nonempty lists has at least as many elements as its
concatenation is long ... stated for the direction we need: the number of
blocks is at most the total length. -/
theorem length_le_sum_lengths {α : Type} :
    ∀ l : List (List α), (∀ x ∈ l, x ≠ []) → l.length ≤ (l.map List.length).sum := by
  intro l
  induction l with
  | nil => simp
  | cons x xs ih =>
    intro h
    simp only [List.map_cons, List.sum_cons, List.length_cons]
    have hx : 1 ≤ x.length := List.length_pos.mpr (h x (List.mem_cons_self x xs))
    have hxs := ih (fun y hy => h y (List.mem_cons.mpr (Or.inr hy)))
    omega

/-- C5: Existing-newline preservation.  The wrapper's output splits at
newlines into the concatenation, in order, of each input segment's wrapped
lines (segments are wrapped independently and reconstituted in order); the
output never has fewer newlines than the input (no original newline is
removed); and the lines of each wrapped segment concatenate back to exactly
that segment (no text moves across a newline). -/
theorem C5_newline_preservation (T : List Char) (L : ℕ) :
    splitNl ((wrap_zh_desc_text T L).1) =
        ((splitNl T).map (fun p => splitNl (wrap_segment p L))).flatten ∧
      T.count '\n' ≤ ((wrap_zh_desc_text T L).1).count '\n' ∧
      ∀ p ∈ splitNl T, (splitNl (wrap_segment p L)).flatten = p := by
  refine ⟨wrap_parts_decompose T L, ?_, ?_⟩
  · have h2 : (splitNl T).length ≤
        (((splitNl T).map (fun p => splitNl (wrap_segment p L))).map List.length).sum := by
      have hne : ∀ x ∈ (splitNl T).map (fun p => splitNl (wrap_segment p L)), x ≠ [] := by
        intro x hx
        obtain ⟨p, hp, rfl⟩ := List.mem_map.mp hx
        exact splitNl_ne_nil _
      simpa using length_le_sum_lengths _ hne
    have h3 := congrArg List.length (wrap_parts_decompose T L)
    rw [List.length_flatten, length_splitNl] at h3
    have h4 := length_splitNl T
    omega
  · intro p hp
    rw [flatten_splitNl, wrap_segment_filter]
    apply List.filter_eq_self.mpr
    intro c hc
    have hcne : c ≠ '\n' := fun he => splitNl_no_nl T p hp (he ▸ hc)
    simp [hcne]

/-- Witness for C5's universally quantified components at a concrete input. -/
theorem C5_newline_preservation_witness :
    (splitNl ((wrap_zh_desc_text "a\nbb".data 1).1) =
        ((splitNl "a\nbb".data).map (fun p => splitNl (wrap_segment p 1))).flatten) ∧
      (splitNl (wrap_segment "a".data 1)).flatten = "a".data :=
  ⟨(C5_newline_preservation "a\nbb".data 1).1,
   (C5_newline_preservation "a\nbb".data 1).2.2 "a".data (by decide)⟩

/-! ### Search-window restriction and cursor advance -/

/-- `end_vis` of `choose_split_token` (source line 125). -/
def end_vis (vis : List ℕ) (start_vis max_len : ℕ) : ℕ := min vis.length (start_vis + max_len)

/-- `window_end` of `choose_split_token` (source line 129). -/
def window_end (vis : List ℕ) (start_vis max_len : ℕ) : ℕ :=
  min vis.length (end_vis vis start_vis max_len + 8)

/-- A sum of ones over a list counts its length. -/
theorem sum_map_ones {α : Type} :
    ∀ (l : List α) (g : α → ℕ), (∀ x ∈ l, g x = 1) → (l.map g).sum = l.length := by
  intro l
  induction l with
  | nil => simp
  | cons x xs ih =>
    intro g h
    simp only [List.map_cons, List.sum_cons, List.length_cons,
      h x (List.mem_cons_self x xs), ih g (fun y hy => h y (List.mem_cons.mpr (Or.inr hy)))]
    omega

/-- When every visible token is a single character, the window text has
exactly one character per window position. -/
theorem windowText_length (tokens : List Tok) (s w : ℕ)
    (hvis : ∀ t ∈ tokens, t.isTag = false → ∃ c, t.text = [c])
    (hw : w ≤ (visible_token_indices tokens).length) :
    (windowText tokens (visible_token_indices tokens) s w).length = w - s := by
  rw [windowText, List.length_flatten, List.map_map]
  rw [sum_map_ones _ _ ?hone]
  · simp [List.length_range']
  case hone =>
    intro i hi
    have hb := List.mem_range'_1.mp hi
    have hilen : i < (visible_token_indices tokens).length := by omega
    have hmem : (visible_token_indices tokens).getD i 0 ∈ visible_token_indices tokens :=
      getD_mem hilen
    obtain ⟨hlt, htag⟩ := (mem_visible_token_indices tokens _).mp hmem
    have hmem2 : tokens.getD ((visible_token_indices tokens).getD i 0) dTok ∈ tokens :=
      getD_mem hlt
    obtain ⟨c, hc⟩ := hvis _ hmem2 htag
    simp only [Function.comp_apply]
    rw [hc]
    rfl

/-- Tier-2 results lie in the search window `[start_vis, window_end)`. -/
theorem tier2_window_spec (words : List (List Char)) (tokens : List Tok) (vis prot : List ℕ)
    (s e w : ℕ) (hwords : ∀ u ∈ words, u ≠ [])
    (hvt : (windowText tokens vis s w).length = w - s) :
    ∀ v, (tier2_words words tokens vis prot s e w).1 = some v → s ≤ v ∧ v < w := by
  simp only [tier2_words]
  apply foldl_preserve (fun acc : Option ℕ × ℤ => ∀ j, acc.1 = some j → s ≤ j ∧ j < w)
  · intro b u hu hb
    apply foldl_preserve (fun acc : Option ℕ × ℤ => ∀ j, acc.1 = some j → s ≤ j ∧ j < w)
    · intro b' pos hpos hb'
      simp only [tier2_step]
      split_ifs with g1 g2 g3 g4 <;>
        first
          | exact hb'
          | (intro j hj
             have hj' : s + (pos + u.length) - 1 = j := by simpa using hj
             subst hj'
             rw [occurrences] at hpos
             obtain ⟨-, hpf⟩ := List.mem_filter.mp hpos
             have hple : u.length ≤ ((windowText tokens vis s w).drop pos).length :=
               (List.isPrefixOf_iff_prefix.mp hpf).length_le
             rw [List.length_drop, hvt] at hple
             have hu1 : 1 ≤ u.length := List.length_pos.mpr (hwords u hu)
             constructor <;> omega)
    · exact hb
  · intro j hj
    simp at hj

/-- C6 counterexample: with cursor 0 and maximum length 4 on
`"ab，cdefg"`, tier 1 (the punctuation tier) itself returns the comma at
visible position 2, which is strictly before the target cut position
`0 + 4`, and the chooser adopts it — so tier-1 candidates are not
restricted to positions at or after the target cut. -/
theorem C6_counterexample :
    (tier1 (tokenize_preserving_tags "ab，cdefg".data)
        (visible_token_indices (tokenize_preserving_tags "ab，cdefg".data)) [] 0 4 8).1 =
        some 2 ∧
      2 < 0 + 4 ∧
      choose_split_token (tokenize_preserving_tags "ab，cdefg".data)
        (visible_token_indices (tokenize_preserving_tags "ab，cdefg".data)) 0 4 [] = some 2 ∧
      isPunctText ((tokenize_preserving_tags "ab，cdefg".data).getD 2 dTok).text = true := by
  decide

/-- C6 (amended): the candidates adopted by the punctuation tier and the
semantic-word tier are restricted to the search window spanning from the
current cursor position up to 8 visible characters beyond the target cut
position: any tier-1 result is `vis[i]` for a window position
`start ≤ i < window_end`, and any tier-2 result position `v` satisfies
`start ≤ v < window_end`. -/
theorem C6_window_restriction (s : List Char) (prot : List ℕ) (start max_len : ℕ) :
    (∀ idx,
        (tier1 (tokenize_preserving_tags s) (visible_token_indices (tokenize_preserving_tags s))
            prot start (end_vis (visible_token_indices (tokenize_preserving_tags s)) start max_len)
            (window_end (visible_token_indices (tokenize_preserving_tags s)) start max_len)).1 =
          some idx →
        ∃ i, start ≤ i ∧
          i < window_end (visible_token_indices (tokenize_preserving_tags s)) start max_len ∧
          idx = (visible_token_indices (tokenize_preserving_tags s)).getD i 0) ∧
      ∀ v,
        (tier2 (tokenize_preserving_tags s) (visible_token_indices (tokenize_preserving_tags s))
            prot start (end_vis (visible_token_indices (tokenize_preserving_tags s)) start max_len)
            (window_end (visible_token_indices (tokenize_preserving_tags s)) start max_len)).1 =
          some v →
        start ≤ v ∧ v < window_end (visible_token_indices (tokenize_preserving_tags s)) start max_len := by
  constructor
  · intro idx h
    obtain ⟨i, hir, hieq, -, -⟩ := tier1_some_spec _ _ _ _ _ _ idx h
    have hb := List.mem_range'_1.mp hir
    exact ⟨i, hb.1, by omega, hieq⟩
  · intro v h
    simp only [tier2] at h
    refine tier2_window_spec PRIORITY_SPLIT_WORDS _ _ prot start _ _ ?_ ?_ v h
    · decide
    · exact windowText_length _ start _ (fun t ht => (tokenize_shape s t ht).2)
        (Nat.min_le_left _ _)

/-- Witness for the amended C6: on `"a，并且bcdefg"` with cursor 0 and
maximum length 4, tier 1 returns the comma token and tier 2 returns visible
position 3 (after `并且`), both inside the window. -/
theorem C6_window_restriction_witness :
    (∃ i, 0 ≤ i ∧
        i < window_end (visible_token_indices (tokenize_preserving_tags "a，并且bcdefg".data)) 0 4 ∧
        1 = (visible_token_indices (tokenize_preserving_tags "a，并且bcdefg".data)).getD i 0) ∧
      (0 ≤ 3 ∧
        3 < window_end (visible_token_indices (tokenize_preserving_tags "a，并且bcdefg".data)) 0 4) :=
  ⟨(C6_window_restriction "a，并且bcdefg".data [] 0 4).1 1 (by decide),
   (C6_window_restriction "a，并且bcdefg".data [] 0 4).2 3 (by decide)⟩

/-- In a `<`-sorted list, the first index found for the value at position `i`
is `i` itself. -/
theorem findIdx_sorted : ∀ (l : List ℕ) (i t n : ℕ), List.Pairwise (· < ·) l →
    i < l.length → l.getD i 0 = t →
    List.findIdx? (fun x => x == t) l n = some (n + i) := by
  intro l
  induction l with
  | nil => intro i t n _ h; simp at h
  | cons x xs ih =>
    intro i t n hp h he
    cases i with
    | zero =>
      have hx : x = t := by simpa using he
      rw [List.findIdx?_cons]
      simp [hx]
    | succ i =>
      have hxs : i < xs.length := by simpa using h
      have he' : xs.getD i 0 = t := by simpa using he
      have hmem : t ∈ xs := he' ▸ getD_mem hxs
      have hlt : x < t := (List.pairwise_cons.mp hp).1 t hmem
      have hne : ¬((x == t) = true) := by
        simp only [beq_iff_eq]
        omega
      rw [List.findIdx?_cons, if_neg hne,
        ih i t (n + 1) (List.pairwise_cons.mp hp).2 hxs he']
      congr 1
      omega

/-- C8: Termination.  Whenever the chooser returns a split token, the
position the wrap loop finds for it in the visible-index list is at or
after the current cursor, so the next cursor `k + 1` is strictly larger
than the current one and every loop iteration strictly advances (the loop
otherwise exits).  The wrap functions are total by construction. -/
theorem C8_cursor_advances (s : List Char) (prot : List ℕ) (start max_len t : ℕ)
    (h : choose_split_token (tokenize_preserving_tags s)
        (visible_token_indices (tokenize_preserving_tags s)) start max_len prot = some t) :
    ∃ k, (visible_token_indices (tokenize_preserving_tags s)).findIdx? (fun x => x == t) =
        some k ∧ start < k + 1 := by
  obtain ⟨-, i, hsi, hilen, hieq⟩ := choose_some_spec _ _ prot start max_len t h
  have hp : List.Pairwise (· < ·) (visible_token_indices (tokenize_preserving_tags s)) :=
    List.Pairwise.sublist (List.filter_sublist _) (List.pairwise_lt_range _)
  refine ⟨i, ?_, by omega⟩
  have hf := findIdx_sorted _ i t 0 hp hilen hieq.symm
  simpa using hf

/-- Witness for C8 at a concrete chooser call. -/
theorem C8_cursor_advances_witness :
    ∃ k, (visible_token_indices (tokenize_preserving_tags "ab，cdefg".data)).findIdx?
        (fun x => x == 2) = some k ∧ 0 < k + 1 :=
  C8_cursor_advances "ab，cdefg".data [] 0 4 2 (by decide)

/-! ### Line structure of assembled output -/

/-- `getD` through a skipped head element. -/
theorem getD_cons_skip (c : Char) (C : List Char) (j : ℕ) (hj : 1 ≤ j) :
    (c :: C).getD j 'a' = C.getD (j - 1) 'a' := by
  cases j with
  | zero => omega
  | succ j => simp

/-- Every newline in an assembled segment is preceded by the single
character of a visible token that carries a break: newlines never start the
output, never follow another newline, and always directly follow the broken
visible token's character. -/
theorem assembleFrom_newline (breaks : List ℕ) :
    ∀ (ts : List Tok) (idx0 : ℕ),
      (∀ t ∈ ts, t.text ≠ [] ∧ '\n' ∉ t.text) →
      (∀ k, k < ts.length → (idx0 + k) ∈ breaks →
        ∃ c, (ts.getD k dTok).text = [c] ∧ (ts.getD k dTok).isTag = false) →
      ∀ i, i < (assembleFrom breaks idx0 ts).length →
        (assembleFrom breaks idx0 ts).getD i 'a' = '\n' →
        0 < i ∧ ∃ k, k < ts.length ∧ (idx0 + k) ∈ breaks ∧
          (ts.getD k dTok).isTag = false ∧
          (ts.getD k dTok).text = [(assembleFrom breaks idx0 ts).getD (i - 1) 'a'] := by
  intro ts
  induction ts with
  | nil =>
    intro idx0 _ _ i hlen hnl
    simp [assembleFrom] at hlen
  | cons t rest ih =>
    intro idx0 htxt hsng i hlen hnl
    have hA := htxt t (List.mem_cons_self t rest)
    have hApos : 0 < t.text.length := List.length_pos.mpr hA.1
    have hres : assembleFrom breaks idx0 (t :: rest) =
        (t.text ++ (if idx0 ∈ breaks then ['\n'] else [])) ++
          assembleFrom breaks (idx0 + 1) rest := by
      simp only [assembleFrom]
    have hreclen : ∀ k, k < rest.length → (idx0 + 1 + k) ∈ breaks →
        ∃ c, (rest.getD k dTok).text = [c] ∧ (rest.getD k dTok).isTag = false := by
      intro k hk hkb
      have hk1 : k + 1 < (t :: rest).length := by simpa using Nat.succ_lt_succ hk
      have hkb1 : idx0 + (k + 1) ∈ breaks := by
        have he : idx0 + (k + 1) = idx0 + 1 + k := by omega
        rw [he]; exact hkb
      exact hsng (k + 1) hk1 hkb1
    have hrectxt : ∀ u ∈ rest, u.text ≠ [] ∧ '\n' ∉ u.text :=
      fun u hu => htxt u (List.mem_cons.mpr (Or.inr hu))
    by_cases hiA : i < t.text.length
    · exfalso
      apply hA.2
      have houter : i < (t.text ++ (if idx0 ∈ breaks then ['\n'] else [])).length := by
        rw [List.length_append]; omega
      have hgetd : (assembleFrom breaks idx0 (t :: rest)).getD i 'a' = t.text.getD i 'a' := by
        rw [hres, List.getD_append _ _ 'a' i houter, List.getD_append _ _ 'a' i hiA]
      rw [hgetd] at hnl
      rw [← hnl]
      exact getD_mem hiA
    · push_neg at hiA
      by_cases hbr : idx0 ∈ breaks
      · rw [if_pos hbr] at hres
        by_cases hi0 : i = t.text.length
        · obtain ⟨c, hc, htag⟩ := hsng 0 (by simp) (by simpa using hbr)
          have hc' : t.text = [c] := hc
          have hlen1 : t.text.length = 1 := by rw [hc']; rfl
          have hi1 : i = 1 := by omega
          refine ⟨by omega, 0, by simp, by simpa using hbr, htag, ?_⟩
          have houter : i - 1 < (t.text ++ ['\n']).length := by
            rw [List.length_append]; omega
          have hprev : (assembleFrom breaks idx0 (t :: rest)).getD (i - 1) 'a' =
              t.text.getD 0 'a' := by
            rw [hres, List.getD_append _ _ 'a' (i - 1) houter,
              List.getD_append _ _ 'a' (i - 1) (by omega)]
            rw [hi1]
          show t.text = [(assembleFrom breaks idx0 (t :: rest)).getD (i - 1) 'a']
          rw [hprev, hc']
          rfl
        · have hi2 : t.text.length + 1 ≤ i := by omega
          have habl : (t.text ++ ['\n']).length = t.text.length + 1 := by
            rw [List.length_append]; rfl
          have hCi : (assembleFrom breaks idx0 (t :: rest)).getD i 'a' =
              (assembleFrom breaks (idx0 + 1) rest).getD (i - t.text.length - 1) 'a' := by
            rw [hres, List.getD_append_right _ _ 'a' i (by omega)]
            congr 1
            omega
          have hC_len : i - t.text.length - 1 < (assembleFrom breaks (idx0 + 1) rest).length := by
            rw [hres] at hlen
            rw [List.length_append, habl] at hlen
            omega
          have hrec := ih (idx0 + 1) hrectxt hreclen
            (i - t.text.length - 1) hC_len (by rw [← hCi]; exact hnl)
          obtain ⟨hipos, k', hk'len, hk'br, hk'tag, hk'txt⟩ := hrec
          refine ⟨by omega, k' + 1, by simpa using Nat.succ_lt_succ hk'len, ?_, hk'tag, ?_⟩
          · have he : idx0 + (k' + 1) = idx0 + 1 + k' := by omega
            rw [he]; exact hk'br
          · have hprev : (assembleFrom breaks idx0 (t :: rest)).getD (i - 1) 'a' =
                (assembleFrom breaks (idx0 + 1) rest).getD (i - t.text.length - 1 - 1) 'a' := by
              rw [hres, List.getD_append_right _ _ 'a' (i - 1) (by omega)]
              congr 1
              omega
            rw [hprev]
            exact hk'txt
      · rw [if_neg hbr] at hres
        have habl : (t.text ++ ([] : List Char)).length = t.text.length := by
          rw [List.length_append]; rfl
        have hCi : (assembleFrom breaks idx0 (t :: rest)).getD i 'a' =
            (assembleFrom breaks (idx0 + 1) rest).getD (i - t.text.length) 'a' := by
          rw [hres, List.getD_append_right _ _ 'a' i (by omega)]
          congr 1
          omega
        have hC_len : i - t.text.length < (assembleFrom breaks (idx0 + 1) rest).length := by
          rw [hres] at hlen
          rw [List.length_append, habl] at hlen
          omega
        have hrec := ih (idx0 + 1) hrectxt hreclen
          (i - t.text.length) hC_len (by rw [← hCi]; exact hnl)
        obtain ⟨hipos, k', hk'len, hk'br, hk'tag, hk'txt⟩ := hrec
        refine ⟨by omega, k' + 1, by simpa using Nat.succ_lt_succ hk'len, ?_, hk'tag, ?_⟩
        · have he : idx0 + (k' + 1) = idx0 + 1 + k' := by omega
          rw [he]; exact hk'br
        · have hprev : (assembleFrom breaks idx0 (t :: rest)).getD (i - 1) 'a' =
              (assembleFrom breaks (idx0 + 1) rest).getD (i - t.text.length - 1) 'a' := by
            rw [hres, List.getD_append_right _ _ 'a' (i - 1) (by omega)]
            congr 1
            omega
          rw [hprev]
          exact hk'txt

/-- C10: Non-empty lines.  For a newline-free segment, every newline in the
output of `wrap_segment` occurs at a positive position, is not preceded by
another newline, and is directly preceded by the single character of a
visible (non-tag) token of the segment's tokenization — hence the output
never begins with a newline, never contains two consecutive newlines, and
every line except possibly the last ends with (so contains) a visible
character. -/
theorem C10_nonempty_lines (s : List Char) (L : ℕ) (hnl : '\n' ∉ s) (i : ℕ)
    (hi : i < (wrap_segment s L).length)
    (h : (wrap_segment s L).getD i 'a' = '\n') :
    0 < i ∧ (wrap_segment s L).getD (i - 1) 'a' ≠ '\n' ∧
      ∃ k, k < (tokenize_preserving_tags s).length ∧
        ((tokenize_preserving_tags s).getD k dTok).isTag = false ∧
        ((tokenize_preserving_tags s).getD k dTok).text =
          [(wrap_segment s L).getD (i - 1) 'a'] := by
  have hseg : wrap_segment s L = (if wrap_breaks s L = [] then s
      else assembleFrom (wrap_breaks s L) 0 (tokenize_preserving_tags s)) := rfl
  by_cases hb : wrap_breaks s L = []
  · exfalso
    rw [hseg, if_pos hb] at h hi
    exact hnl (h ▸ getD_mem hi)
  · rw [hseg, if_neg hb] at h hi ⊢
    have hmain := assembleFrom_newline (wrap_breaks s L) (tokenize_preserving_tags s) 0
      (fun t ht => ⟨(tokenize_shape s t ht).1,
        fun hmem => hnl (tokenize_text_subset s t ht '\n' hmem)⟩)
      (fun k hk hkb => by
        have hkb' : k ∈ wrap_breaks s L := by simpa using hkb
        have hvismem := (wrap_breaks_visible s L k hkb').1
        obtain ⟨hklen, hktag⟩ := (mem_visible_token_indices _ k).mp hvismem
        obtain ⟨c, hc⟩ := (tokenize_shape s _ (getD_mem hklen)).2 hktag
        exact ⟨c, hc, hktag⟩)
      i hi h
    obtain ⟨hipos, k, hklen, hkbr, hktag, hktxt⟩ := hmain
    refine ⟨hipos, ?_, k, hklen, hktag, hktxt⟩
    intro hcontra
    have hcmem : (assembleFrom (wrap_breaks s L) 0 (tokenize_preserving_tags s)).getD (i - 1) 'a' ∈
        ((tokenize_preserving_tags s).getD k dTok).text := by
      rw [hktxt]
      simp
    rw [hcontra] at hcmem
    exact hnl (tokenize_text_subset s _ (getD_mem hklen) '\n' hcmem)

/-- Witness for C10 at the first inserted newline of a concrete wrap. -/
theorem C10_nonempty_lines_witness :
    0 < 3 ∧ (wrap_segment "ab，cdefg".data 4).getD (3 - 1) 'a' ≠ '\n' ∧
      ∃ k, k < (tokenize_preserving_tags "ab，cdefg".data).length ∧
        ((tokenize_preserving_tags "ab，cdefg".data).getD k dTok).isTag = false ∧
        ((tokenize_preserving_tags "ab，cdefg".data).getD k dTok).text =
          [(wrap_segment "ab，cdefg".data 4).getD (3 - 1) 'a'] :=
  C10_nonempty_lines "ab，cdefg".data 4 (by decide) 3 (by decide) (by decide)

/-! ### Checked (index-error-aware) variants: the wrapper never raises -/

/-- Fold over a list in the `Option` monad: `none` models a raised error. -/
def optFoldl {α β : Type} (g : β → α → Option β) : β → List α → Option β
  | b, [] => some b
  | b, x :: xs =>
    match g b x with
    | none => none
    | some b2 => optFoldl g b2 xs

/-- Traverse a list in the `Option` monad. -/
def optTraverse {α β : Type} (g : α → Option β) : List α → Option (List β)
  | [] => some []
  | x :: xs =>
    match g x with
    | none => none
    | some y =>
      match optTraverse g xs with
      | none => none
      | some ys => some (y :: ys)

/-- If each step succeeds, the checked fold computes the plain fold. -/
theorem optFoldl_eq {α β : Type} (f : β → α → β) (g : β → α → Option β) :
    ∀ (l : List α) (b : β), (∀ b2 a, a ∈ l → g b2 a = some (f b2 a)) →
      optFoldl g b l = some (l.foldl f b) := by
  intro l
  induction l with
  | nil => intro b _; rfl
  | cons x xs ih =>
    intro b hfg
    simp only [optFoldl, hfg b x (List.mem_cons_self x xs), List.foldl_cons]
    exact ih (f b x) (fun b2 a ha => hfg b2 a (List.mem_cons.mpr (Or.inr ha)))

/-- If each element succeeds, the checked traversal computes the map. -/
theorem optTraverse_eq {α β : Type} (f : α → β) (g : α → Option β) :
    ∀ l : List α, (∀ a ∈ l, g a = some (f a)) → optTraverse g l = some (l.map f) := by
  intro l
  induction l with
  | nil => intro _; rfl
  | cons x xs ih =>
    intro hfg
    simp only [optTraverse, hfg x (List.mem_cons_self x xs), List.map_cons]
    rw [ih (fun a ha => hfg a (List.mem_cons.mpr (Or.inr ha)))]

/-- Checked `findCloseParen`: every token access is via `getElem?`; `none`
models a Python IndexError. -/
def findCloseParenC (tokens : List Tok) (tagName : List Char) : ℕ → ℕ → Option (Option (ℕ × ℕ))
  | 0, _ => some none
  | fuel + 1, j =>
    if j + 1 < tokens.length then
      match tokens[j]? with
      | none => none
      | some tj =>
        if tj.isTag then findCloseParenC tokens tagName fuel (j + 1)
        else if tj.text = [')'] then
          match tokens[j + 1]? with
          | none => none
          | some tnext =>
            if tnext.isTag ∧ parse_close_tag_name tnext.text = tagName then some (some (j, j + 1))
            else findCloseParenC tokens tagName fuel (j + 1)
        else findCloseParenC tokens tagName fuel (j + 1)
    else some none

/-- Checked `fpiLoop`. -/
def fpiLoopC (tokens : List Tok) : ℕ → ℕ → List ℕ → Option (List ℕ)
  | 0, _, acc => some acc
  | fuel + 1, i, acc =>
    if i + 3 < tokens.length then
      match tokens[i]? with
      | none => none
      | some ti =>
        if ti.isTag = false ∨ ti.text.take 2 = ['[', '/'] then fpiLoopC tokens fuel (i + 1) acc
        else
          if parse_open_tag_name ti.text = [] then fpiLoopC tokens fuel (i + 1) acc
          else
            match tokens[i + 1]? with
            | none => none
            | some tn =>
              if tn.isTag ∨ tn.text ≠ ['('] then fpiLoopC tokens fuel (i + 1) acc
              else
                match findCloseParenC tokens (parse_open_tag_name ti.text) tokens.length (i + 2) with
                | none => none
                | some (some cp) =>
                  fpiLoopC tokens fuel (cp.2 + 1) (acc ++ List.range' (i + 1) (cp.1 - i))
                | some none => fpiLoopC tokens fuel (i + 1) acc
    else some acc

/-- Checked `find_protected_indices`. -/
def find_protected_indicesC (tokens : List Tok) : Option (List ℕ) :=
  fpiLoopC tokens tokens.length 0 []

/-- Checked tier 1. -/
def tier1C (tokens : List Tok) (vis prot : List ℕ) (s e w : ℕ) : Option (Option ℕ × ℤ) :=
  optFoldl
    (fun (acc : Option ℕ × ℤ) (i : ℕ) =>
      match vis[i]? with
      | none => none
      | some token_idx =>
        if token_idx ∈ prot then some acc
        else
          match tokens[token_idx]? with
          | none => none
          | some tok =>
            if isPunctText tok.text then
              let dist : ℤ := |((i : ℤ) + 1) - (e : ℤ)|
              let score : ℤ := 4 * dist + (if i + 1 ≤ e then -1 else 0)
              some (if score < acc.2 then (some token_idx, score) else acc)
            else some acc)
    (none, 4 * 10 ^ 9) (List.range' s (w - s))

/-- Checked window text. -/
def windowTextC (tokens : List Tok) (vis : List ℕ) (s w : ℕ) : Option (List Char) :=
  match optTraverse
      (fun i =>
        match vis[i]? with
        | none => none
        | some ti =>
          match tokens[ti]? with
          | none => none
          | some tok => some tok.text)
      (List.range' s (w - s)) with
  | none => none
  | some texts => some texts.flatten

/-- Checked tier-2 candidate step (its index access is explicitly guarded in
the source, lines 163-168, so it never errors). -/
def tier2_stepC (vis prot : List ℕ) (start_vis target_local wlen : ℕ)
    (acc : Option ℕ × ℤ) (pos : ℕ) : Option (Option ℕ × ℤ) :=
  let split_local := pos + wlen
  let split_vis := start_vis + split_local - 1
  if split_vis < start_vis ∨ vis.length ≤ split_vis then some acc
  else
    match vis[split_vis]? with
    | none => none
    | some tv =>
      if tv ∈ prot then some acc
      else
        let score : ℤ := 5 * |(split_local : ℤ) - (target_local : ℤ)| +
          (if split_local ≤ target_local then -1 else 0)
        some (if score < acc.2 then (some split_vis, score) else acc)

/-- Checked tier 2. -/
def tier2C (tokens : List Tok) (vis prot : List ℕ) (s e w : ℕ) : Option (Option ℕ × ℤ) :=
  match windowTextC tokens vis s w with
  | none => none
  | some vt =>
    optFoldl
      (fun (acc : Option ℕ × ℤ) (u : List Char) =>
        optFoldl (tier2_stepC vis prot s (e - s) u.length) acc (occurrences vt u))
      (none, 5 * 10 ^ 9) PRIORITY_SPLIT_WORDS

/-- Checked linear scan for an unprotected visible position. -/
def findUnprotC (vis prot : List ℕ) : List ℕ → Option (Option ℕ)
  | [] => some none
  | i :: is =>
    match vis[i]? with
    | none => none
    | some ti => if ti ∈ prot then findUnprotC vis prot is else some (some ti)

/-- Checked `choose_split_token`. -/
def choose_split_tokenC (tokens : List Tok) (vis : List ℕ) (start_vis max_len : ℕ)
    (prot : List ℕ) : Option (Option ℕ) :=
  let e := min vis.length (start_vis + max_len)
  if vis.length ≤ e then some none
  else
    let w := min vis.length (e + 8)
    match tier1C tokens vis prot start_vis e w with
    | none => none
    | some (some idx, _) => some (some idx)
    | some (none, _) =>
      match tier2C tokens vis prot start_vis e w with
      | none => none
      | some (some v, _) =>
        match vis[v]? with
        | none => none
        | some tv => some (some tv)
      | some (none, _) =>
        match findUnprotC vis prot ((List.range' (start_vis + 1) (e - 1 - start_vis)).reverse) with
        | none => none
        | some (some tv) => some (some tv)
        | some none =>
          match findUnprotC vis prot (List.range' e (vis.length - e)) with
          | none => none
          | some r => some r

/-- `getElem?` at a valid index yields the totalized `getD` value. -/
theorem getElem?_eq_getD {α : Type} (l : List α) (i : ℕ) (d : α) (h : i < l.length) :
    l[i]? = some (l.getD i d) := by
  rw [List.getElem?_eq_getElem h, List.getD_eq_getElem l d h]

/-- The checked close-paren scan never errors: it computes the plain scan.
Both accesses are guarded by `j + 1 < n`. -/
theorem findCloseParenC_eq (tokens : List Tok) (tagName : List Char) :
    ∀ fuel j, findCloseParenC tokens tagName fuel j =
      some (findCloseParen tokens tagName fuel j) := by
  intro fuel
  induction fuel with
  | zero => intro j; rfl
  | succ fuel ih =>
    intro j
    by_cases hj : j + 1 < tokens.length
    · have hjl : j < tokens.length := by omega
      simp only [findCloseParenC, findCloseParen, if_pos hj,
        getElem?_eq_getD tokens j dTok hjl, getElem?_eq_getD tokens (j + 1) dTok hj]
      split_ifs with h1 h2 h3 <;> first | rfl | exact ih (j + 1)
    · simp only [findCloseParenC, findCloseParen, if_neg hj]

/-- The checked protected-span scan never errors: it computes the plain
scan.  Both accesses are guarded by `i + 3 < n`. -/
theorem fpiLoopC_eq (tokens : List Tok) :
    ∀ fuel i acc, fpiLoopC tokens fuel i acc = some (fpiLoop tokens fuel i acc) := by
  intro fuel
  induction fuel with
  | zero => intro i acc; rfl
  | succ fuel ih =>
    intro i acc
    by_cases hi : i + 3 < tokens.length
    · have hil : i < tokens.length := by omega
      have hi1 : i + 1 < tokens.length := by omega
      simp only [fpiLoopC, fpiLoop, if_pos hi, getElem?_eq_getD tokens i dTok hil,
        getElem?_eq_getD tokens (i + 1) dTok hi1, findCloseParenC_eq]
      split_ifs with h1 h2 h3 <;>
        first
          | exact ih _ _
          | (cases hfc : findCloseParen tokens
                (parse_open_tag_name ((tokens.getD i dTok)).text) tokens.length (i + 2) with
             | none => simp only [hfc]; exact ih _ _
             | some cp => simp only [hfc]; exact ih _ _)
    · simp only [fpiLoopC, fpiLoop, if_neg hi]

/-- The checked protected-span detector never errors. -/
theorem find_protected_indicesC_eq (tokens : List Tok) :
    find_protected_indicesC tokens = some (find_protected_indices tokens) :=
  fpiLoopC_eq tokens tokens.length 0 []

/-- The checked tier 1 never errors when the window lies inside the
visible-index list and its entries index into the token list. -/
theorem tier1C_eq (tokens : List Tok) (vis prot : List ℕ) (s e w : ℕ)
    (hw : w ≤ vis.length) (hb : ∀ x ∈ vis, x < tokens.length) :
    tier1C tokens vis prot s e w = some (tier1 tokens vis prot s e w) := by
  unfold tier1C tier1
  apply optFoldl_eq
  intro b i hi
  have hib := List.mem_range'_1.mp hi
  have hilen : i < vis.length := by omega
  have htb : vis.getD i 0 < tokens.length := hb _ (getD_mem hilen)
  simp only [getElem?_eq_getD vis i 0 hilen, getElem?_eq_getD tokens (vis.getD i 0) dTok htb]
  split_ifs with h1 h2 h3 <;> rfl

/-- The checked window-text construction never errors under the same
conditions. -/
theorem windowTextC_eq (tokens : List Tok) (vis : List ℕ) (s w : ℕ)
    (hw : w ≤ vis.length) (hb : ∀ x ∈ vis, x < tokens.length) :
    windowTextC tokens vis s w = some (windowText tokens vis s w) := by
  unfold windowTextC windowText
  rw [optTraverse_eq (fun i => (tokens.getD (vis.getD i 0) dTok).text) _ _ ?hstep]
  case hstep =>
    intro i hi
    have hib := List.mem_range'_1.mp hi
    have hilen : i < vis.length := by omega
    have htb : vis.getD i 0 < tokens.length := hb _ (getD_mem hilen)
    simp only [getElem?_eq_getD vis i 0 hilen, getElem?_eq_getD tokens (vis.getD i 0) dTok htb]

/-- The checked tier-2 step never errors: the source's explicit bound check
(lines 163-168) guards its only subscript. -/
theorem tier2_stepC_eq (vis prot : List ℕ) (s tl wl : ℕ) (acc : Option ℕ × ℤ) (pos : ℕ) :
    tier2_stepC vis prot s tl wl acc pos = some (tier2_step vis prot s tl wl acc pos) := by
  unfold tier2_stepC tier2_step
  by_cases g1 : s + (pos + wl) - 1 < s ∨ vis.length ≤ s + (pos + wl) - 1
  · simp only [if_pos g1]
  · have hlt : s + (pos + wl) - 1 < vis.length := by
      push_neg at g1
      exact g1.2
    simp only [if_neg g1, getElem?_eq_getD vis _ 0 hlt]
    split_ifs with g2 g3 <;> rfl

/-- The checked tier 2 never errors under the window conditions. -/
theorem tier2C_eq (tokens : List Tok) (vis prot : List ℕ) (s e w : ℕ)
    (hw : w ≤ vis.length) (hb : ∀ x ∈ vis, x < tokens.length) :
    tier2C tokens vis prot s e w = some (tier2 tokens vis prot s e w) := by
  unfold tier2C tier2 tier2_words
  simp only [windowTextC_eq tokens vis s w hw hb]
  apply optFoldl_eq
  intro b u _
  apply optFoldl_eq
  intro b2 pos _
  exact tier2_stepC_eq vis prot s (e - s) u.length b2 pos

/-- The checked fallback scan never errors when every scanned position is in
range. -/
theorem findUnprotC_eq (vis prot : List ℕ) :
    ∀ l : List ℕ, (∀ i ∈ l, i < vis.length) →
      findUnprotC vis prot l =
        some ((l.find? (fun i => !(prot.contains (vis.getD i 0)))).map
          (fun i => vis.getD i 0)) := by
  intro l
  induction l with
  | nil => intro _; rfl
  | cons x xs ih =>
    intro hl
    have hx : x < vis.length := hl x (List.mem_cons_self x xs)
    simp only [findUnprotC, getElem?_eq_getD vis x 0 hx]
    split_ifs with hmem0
    · have hmem : vis.getD x 0 ∈ prot := hmem0
      have hcontains : prot.contains (vis.getD x 0) = true := List.elem_iff.mpr hmem
      have hpred : (!(prot.contains (vis.getD x 0))) = false := by rw [hcontains]; rfl
      have hnp : ¬ ((fun i => !(prot.contains (vis.getD i 0))) x = true) := by
        intro hc
        have hc2 : (!(prot.contains (vis.getD x 0))) = true := hc
        rw [hpred] at hc2
        exact Bool.noConfusion hc2
      rw [@List.find?_cons_of_neg ℕ (fun i => !(prot.contains (vis.getD i 0))) x xs hnp,
        ih (fun i hi => hl i (List.mem_cons.mpr (Or.inr hi)))]
    · have hmem : vis.getD x 0 ∉ prot := hmem0
      have hcontains : prot.contains (vis.getD x 0) = false := by
        rw [Bool.eq_false_iff]
        intro hc
        exact hmem (List.elem_iff.mp hc)
      have hpred : (!(prot.contains (vis.getD x 0))) = true := by rw [hcontains]; rfl
      have hp2 : ((fun i => !(prot.contains (vis.getD i 0))) x = true) := hpred
      rw [@List.find?_cons_of_pos ℕ (fun i => !(prot.contains (vis.getD i 0))) x xs hp2]
      rfl

/-- The checked chooser never errors on a visible-index list whose entries
index into the token list — in particular on `visible_token_indices`. -/
theorem choose_split_tokenC_eq (tokens : List Tok) (vis prot : List ℕ) (s L : ℕ)
    (hb : ∀ x ∈ vis, x < tokens.length) :
    choose_split_tokenC tokens vis s L prot = some (choose_split_token tokens vis s L prot) := by
  unfold choose_split_tokenC choose_split_token
  by_cases hlen : vis.length ≤ min vis.length (s + L)
  · simp only [if_pos hlen]
  · simp only [if_neg hlen]
    have he_lt : min vis.length (s + L) < vis.length := Nat.lt_of_not_le hlen
    have hw : min vis.length (min vis.length (s + L) + 8) ≤ vis.length := Nat.min_le_left _ _
    simp only [tier1C_eq tokens vis prot s _ _ hw hb,
      tier2C_eq tokens vis prot s _ _ hw hb]
    rcases h1 : tier1 tokens vis prot s (min vis.length (s + L))
        (min vis.length (min vis.length (s + L) + 8)) with ⟨o1, sc1⟩
    cases o1 with
    | some idx => rfl
    | none =>
      rcases h2 : tier2 tokens vis prot s (min vis.length (s + L))
          (min vis.length (min vis.length (s + L) + 8)) with ⟨o2, sc2⟩
      cases o2 with
      | some v =>
        have hv : v < vis.length := by
          have hspec := tier2_some_spec PRIORITY_SPLIT_WORDS tokens vis prot s
            (min vis.length (s + L)) (min vis.length (min vis.length (s + L) + 8)) v
            (by rw [← tier2]; rw [h2])
          exact hspec.2.1
        simp only [getElem?_eq_getD vis v 0 hv]
      | none =>
        have hb3 : ∀ i ∈ (List.range' (s + 1) (min vis.length (s + L) - 1 - s)).reverse,
            i < vis.length := by
          intro i hi
          rw [List.mem_reverse] at hi
          have hir := List.mem_range'_1.mp hi
          omega
        have hb4 : ∀ i ∈ List.range' (min vis.length (s + L))
            (vis.length - min vis.length (s + L)), i < vis.length := by
          intro i hi
          have hir := List.mem_range'_1.mp hi
          omega
        rw [findUnprotC_eq vis prot _ hb3, findUnprotC_eq vis prot _ hb4]
        cases h3 : ((List.range' (s + 1) (min vis.length (s + L) - 1 - s)).reverse).find?
            (fun i => !(prot.contains (vis.getD i 0))) with
        | some i => rfl
        | none =>
          cases h4 : (List.range' (min vis.length (s + L))
              (vis.length - min vis.length (s + L))).find?
              (fun i => !(prot.contains (vis.getD i 0))) with
          | some i => rfl
          | none => rfl

/-! ### Unmatched constructs mark nothing; the chooser-none case stops -/

/-- `dropWhile` never lengthens a list. -/
theorem dropWhile_length_le {α : Type} (p : α → Bool) (l : List α) :
    (l.dropWhile p).length ≤ l.length := by
  have h := congrArg List.length (List.takeWhile_append_dropWhile p l)
  rw [List.length_append] at h
  omega

/-- Fuel does not matter once it dominates the input length. -/
theorem tokenizeAux_irrel : ∀ (f1 f2 : ℕ) (cs : List Char), cs.length ≤ f1 → cs.length ≤ f2 →
    tokenizeAux f1 cs = tokenizeAux f2 cs := by
  intro f1
  induction f1 with
  | zero =>
    intro f2 cs h1 _
    have hnil : cs = [] := List.length_eq_zero.mp (Nat.le_zero.mp h1)
    subst hnil
    cases f2 <;> rfl
  | succ f1 ih =>
    intro f2 cs h1 h2
    match cs with
    | [] => cases f2 <;> rfl
    | c :: rest =>
      match f2 with
      | 0 => simp at h2
      | g + 1 =>
        have hr1 : rest.length ≤ f1 := by simpa using h1
        have hr2 : rest.length ≤ g := by simpa using h2
        have hdb : (rest.dropWhile notBracket).tail.length ≤ rest.length := by
          have hd := dropWhile_length_le notBracket rest
          have ht := List.length_tail (rest.dropWhile notBracket)
          omega
        have hdc : (rest.dropWhile notBrace).tail.length ≤ rest.length := by
          have hd := dropWhile_length_le notBrace rest
          have ht := List.length_tail (rest.dropWhile notBrace)
          omega
        simp only [tokenizeAux]
        split_ifs <;>
          first
            | rw [ih g ((rest.dropWhile notBracket).tail) (by omega) (by omega)]
            | rw [ih g ((rest.dropWhile notBrace).tail) (by omega) (by omega)]
            | rw [ih g rest hr1 hr2]

/-- Tokenizing a plain (non-tag-opening) character prepends a character
token. -/
theorem tokenize_cons_plain (c : Char) (cs : List Char) (h1 : c ≠ '[') (h2 : c ≠ '\x7b') :
    tokenize_preserving_tags (c :: cs) = charTok c :: tokenize_preserving_tags cs := by
  simp only [tokenize_preserving_tags, List.length_cons, tokenizeAux, if_neg h1, if_neg h2]

/-- Tokenizing a run of plain characters maps them to character tokens. -/
theorem tokenize_plain_append (p r : List Char) (hp : ∀ c ∈ p, c ≠ '[' ∧ c ≠ '\x7b') :
    tokenize_preserving_tags (p ++ r) = p.map charTok ++ tokenize_preserving_tags r := by
  induction p with
  | nil => simp
  | cons c p ih =>
    rw [List.cons_append,
      tokenize_cons_plain c _ (hp c (List.mem_cons_self c p)).1 (hp c (List.mem_cons_self c p)).2,
      ih (fun a ha => hp a (List.mem_cons.mpr (Or.inr ha)))]
    rfl

/-- `takeWhile` passes over a prefix it accepts wholly. -/
theorem takeWhile_all_append (p : Char → Bool) :
    ∀ (xs ys : List Char), (∀ x ∈ xs, p x = true) →
      (xs ++ ys).takeWhile p = xs ++ ys.takeWhile p := by
  intro xs
  induction xs with
  | nil => intro ys _; rfl
  | cons x xs ih =>
    intro ys h
    simp only [List.cons_append, List.takeWhile_cons, h x (List.mem_cons_self x xs), if_true]
    rw [ih ys (fun a ha => h a (List.mem_cons.mpr (Or.inr ha)))]

/-- `dropWhile` passes over a prefix it accepts wholly. -/
theorem dropWhile_all_append (p : Char → Bool) :
    ∀ (xs ys : List Char), (∀ x ∈ xs, p x = true) →
      (xs ++ ys).dropWhile p = ys.dropWhile p := by
  intro xs
  induction xs with
  | nil => intro ys _; rfl
  | cons x xs ih =>
    intro ys h
    simp only [List.cons_append, List.dropWhile_cons, h x (List.mem_cons_self x xs), if_true]
    exact ih ys (fun a ha => h a (List.mem_cons.mpr (Or.inr ha)))

/-- Tokenizing a well-formed bracket tag prepends the tag token. -/
theorem tokenize_tag_head (body r : List Char) (hb : body ≠ [])
    (hbody : ∀ c ∈ body, c ≠ '[' ∧ c ≠ ']') :
    tokenize_preserving_tags ('[' :: (body ++ ']' :: r)) =
      ⟨'[' :: (body ++ [']']), true⟩ :: tokenize_preserving_tags r := by
  have hall : ∀ c ∈ body, notBracket c = true := by
    intro c hc
    simp [notBracket, (hbody c hc).1, (hbody c hc).2]
  have htw : (body ++ ']' :: r).takeWhile notBracket = body := by
    rw [takeWhile_all_append notBracket body (']' :: r) hall]
    simp [List.takeWhile_cons, notBracket]
  have hdw : (body ++ ']' :: r).dropWhile notBracket = ']' :: r := by
    rw [dropWhile_all_append notBracket body (']' :: r) hall]
    simp [List.dropWhile_cons, notBracket]
  show tokenizeAux ((body ++ ']' :: r).length + 1) ('[' :: (body ++ ']' :: r)) = _
  simp only [tokenizeAux, if_pos rfl, htw, hdw]
  rw [if_pos (⟨hb, rfl⟩ : body ≠ [] ∧ (']' :: r).head? = some ']')]
  simp only [List.tail_cons, if_true]
  congr 1
  have hfe : r.length ≤ (body ++ ']' :: r).length := by
    rw [List.length_append]
    simp only [List.length_cons]
    omega
  exact tokenizeAux_irrel ((body ++ ']' :: r).length) r.length r hfe le_rfl

/-- Parsing the name of a simple well-formed opening tag. -/
theorem parse_open_tag_name_simple (name : List Char) (hn : name ≠ [])
    (hname : ∀ c ∈ name, c ≠ ']' ∧ c ≠ '/' ∧ c ≠ ':') :
    parse_open_tag_name ('[' :: (name ++ [']'])) = name := by
  have hall : ∀ c ∈ name, (!(openNameStop c)) = true := by
    intro c hc
    simp [openNameStop, (hname c hc).1, (hname c hc).2.1, (hname c hc).2.2]
  have htw : (name ++ [']']).takeWhile (fun c => !(openNameStop c)) = name := by
    rw [takeWhile_all_append _ name [']'] hall]
    simp [List.takeWhile_cons, openNameStop]
  have hdw : (name ++ [']']).dropWhile (fun c => !(openNameStop c)) = [']'] := by
    rw [dropWhile_all_append _ name [']'] hall]
    simp [List.dropWhile_cons, openNameStop]
  simp only [parse_open_tag_name, htw, hdw, if_neg hn]

/-- When every token from position 2 on is a plain character other than
`)`, the close-paren scan finds nothing. -/
theorem findCloseParen_none (tokens : List Tok) (nm : List Char)
    (hplain : ∀ k, 2 ≤ k → k < tokens.length →
      (tokens.getD k dTok).isTag = false ∧ (tokens.getD k dTok).text ≠ [')']) :
    ∀ fuel j, 2 ≤ j → findCloseParen tokens nm fuel j = none := by
  intro fuel
  induction fuel with
  | zero => intro j _; rfl
  | succ fuel ih =>
    intro j hj
    by_cases h1 : j + 1 < tokens.length
    · have hk := hplain j hj (by omega)
      have hnt : ¬ ((tokens.getD j dTok).isTag = true) := by
        intro hc
        rw [hk.1] at hc
        exact Bool.noConfusion hc
      simp only [findCloseParen, if_pos h1, if_neg hnt, if_neg hk.2]
      exact ih (j + 1) (by omega)
    · simp only [findCloseParen, if_neg h1]

/-- The outer scan skips plain tokens: from any positive position over a
token list whose positive positions are all non-tags, nothing is marked. -/
theorem fpiLoop_all_plain (tokens : List Tok)
    (hplain : ∀ k, 1 ≤ k → (tokens.getD k dTok).isTag = false) :
    ∀ fuel i acc, 1 ≤ i → fpiLoop tokens fuel i acc = acc := by
  intro fuel
  induction fuel with
  | zero => intro i acc _; rfl
  | succ fuel ih =>
    intro i acc hi
    by_cases h1 : i + 3 < tokens.length
    · simp only [fpiLoop, if_pos h1, if_pos (Or.inl (hplain i hi))]
      exact ih (i + 1) acc (by omega)
    · simp only [fpiLoop, if_neg h1]

/-- On a token list consisting of an opening tag, a `(`, and then only
plain non-`)` tokens, the protected-span scan marks nothing: there is no
matching `)` + closing tag. -/
theorem fpi_construct_none (nh : Char) (nt : List Char) (M : List Tok)
    (hnh : nh ≠ '/')
    (hparse : ¬ parse_open_tag_name ('[' :: ((nh :: nt) ++ [']'])) = [])
    (hM : ∀ t ∈ M, t.isTag = false ∧ t.text ≠ [')']) :
    find_protected_indices ((⟨'[' :: ((nh :: nt) ++ [']']), true⟩ : Tok) :: charTok '(' :: M) = [] := by
  have hplainT : ∀ k, 2 ≤ k →
      k < ((⟨'[' :: ((nh :: nt) ++ [']']), true⟩ : Tok) :: charTok '(' :: M).length →
      ((((⟨'[' :: ((nh :: nt) ++ [']']), true⟩ : Tok) :: charTok '(' :: M).getD k dTok).isTag
          = false) ∧
        (((⟨'[' :: ((nh :: nt) ++ [']']), true⟩ : Tok) :: charTok '(' :: M).getD k dTok).text
          ≠ [')'] := by
    intro k h2 hk
    obtain ⟨k2, rfl⟩ : ∃ k2, k = k2 + 1 + 1 := ⟨k - 2, by omega⟩
    rw [List.getD_cons_succ, List.getD_cons_succ]
    have hk2 : k2 < M.length := by
      simp only [List.length_cons] at hk
      omega
    exact hM _ (getD_mem hk2)
  have hplain1 : ∀ k, 1 ≤ k →
      ((((⟨'[' :: ((nh :: nt) ++ [']']), true⟩ : Tok) :: charTok '(' :: M).getD k dTok).isTag
        = false) := by
    intro k h1
    obtain ⟨k1, rfl⟩ : ∃ k1, k = k1 + 1 := ⟨k - 1, by omega⟩
    rw [List.getD_cons_succ]
    cases k1 with
    | zero => rfl
    | succ k2 =>
      rw [List.getD_cons_succ]
      by_cases hk2 : k2 < M.length
      · exact (hM _ (getD_mem hk2)).1
      · rw [List.getD_eq_default M dTok (by omega)]
        rfl
  have hfc : findCloseParen ((⟨'[' :: ((nh :: nt) ++ [']']), true⟩ : Tok) :: charTok '(' :: M)
      (parse_open_tag_name ('[' :: ((nh :: nt) ++ [']'])))
      ((⟨'[' :: ((nh :: nt) ++ [']']), true⟩ : Tok) :: charTok '(' :: M).length 2 = none :=
    findCloseParen_none _ _ hplainT _ 2 le_rfl
  have htake : ('[' :: ((nh :: nt) ++ [']'])).take 2 = ['[', nh] := rfl
  have hcond1 : ¬(((⟨'[' :: ((nh :: nt) ++ [']']), true⟩ : Tok)).isTag = false ∨
      ((⟨'[' :: ((nh :: nt) ++ [']']), true⟩ : Tok)).text.take 2 = ['[', '/']) := by
    intro h
    rcases h with h | h
    · exact Bool.noConfusion h
    · rw [htake] at h
      exact hnh (by simpa using h)
  have hcond2 : ¬((charTok '(').isTag = true ∨ (charTok '(').text ≠ ['(']) := by
    simp [charTok]
  simp only [find_protected_indices]
  rw [show ((⟨'[' :: ((nh :: nt) ++ [']']), true⟩ : Tok) :: charTok '(' :: M).length
      = M.length + 1 + 1 from by simp only [List.length_cons]]
  simp only [fpiLoop]
  by_cases hg : 0 + 3 < ((⟨'[' :: ((nh :: nt) ++ [']']), true⟩ : Tok) :: charTok '(' :: M).length
  · rw [if_pos hg]
    simp only [List.getD_cons_zero, List.getD_cons_succ]
    rw [if_neg hcond1, if_neg hparse, if_neg hcond2]
    simp only [Nat.zero_add]
    rw [hfc]
    exact fpiLoop_all_plain _ hplain1 (M.length + 1) 1 [] le_rfl
  · rw [if_neg hg]

/-- The claimed unmatched-construct behaviour on raw text: an opening tag
immediately followed by `(` whose argument never closes marks nothing. -/
theorem unmatched_construct_unprotected (name arg : List Char) (hn : name ≠ [])
    (hname : ∀ c ∈ name, c ≠ '[' ∧ c ≠ ']' ∧ c ≠ '/' ∧ c ≠ ':')
    (harg : ∀ c ∈ arg, c ≠ '[' ∧ c ≠ '\x7b' ∧ c ≠ ')') :
    find_protected_indices
      (tokenize_preserving_tags ('[' :: (name ++ ']' :: ('(' :: arg)))) = [] := by
  have htok : tokenize_preserving_tags ('[' :: (name ++ ']' :: ('(' :: arg))) =
      (⟨'[' :: (name ++ [']']), true⟩ : Tok) :: charTok '(' :: arg.map charTok := by
    rw [tokenize_tag_head name ('(' :: arg) hn (fun c hc => ⟨(hname c hc).1, (hname c hc).2.1⟩),
      tokenize_cons_plain '(' arg (by decide) (by decide)]
    congr 2
    have h := tokenize_plain_append arg [] (fun c hc => ⟨(harg c hc).1, (harg c hc).2.1⟩)
    simpa [tokenize_preserving_tags, tokenizeAux] using h
  rw [htok]
  cases name with
  | nil => exact absurd rfl hn
  | cons nh nt =>
    apply fpi_construct_none nh nt (arg.map charTok)
      (hname nh (List.mem_cons_self nh nt)).2.2.1
    · rw [parse_open_tag_name_simple (nh :: nt) hn
        (fun c hc => ⟨(hname c hc).2.1, (hname c hc).2.2.1, (hname c hc).2.2.2⟩)]
      exact hn
    · intro t ht
      obtain ⟨c, hc, rfl⟩ := List.mem_map.mp ht
      refine ⟨rfl, ?_⟩
      intro hcon
      have hc2 : c = ')' := by simpa [charTok] using hcon
      exact (harg c hc).2.2 hc2

/-- C9: Total, error-free best-effort behaviour.  (1) The protected-span
detector with checked indexing never raises: it equals the unchecked
detector on every token list (its two subscripts are guarded by the loop
bounds).  (2) The chooser with checked indexing never raises on the
wrapper's actual inputs.  (3) When an opening-tag-plus-`(` construct has no
matching `)` followed by a same-named closing tag, the detector marks
nothing for it.  (4) When the chooser reports no split, the wrap loop stops
and returns the breaks placed so far, even if the remaining line is
over-length. -/
theorem C9_error_free :
    (∀ tokens : List Tok, find_protected_indicesC tokens =
        some (find_protected_indices tokens)) ∧
      (∀ (s : List Char) (prot : List ℕ) (start L : ℕ),
        choose_split_tokenC (tokenize_preserving_tags s)
            (visible_token_indices (tokenize_preserving_tags s)) start L prot =
          some (choose_split_token (tokenize_preserving_tags s)
            (visible_token_indices (tokenize_preserving_tags s)) start L prot)) ∧
      (∀ (name arg : List Char), name ≠ [] →
        (∀ c ∈ name, c ≠ '[' ∧ c ≠ ']' ∧ c ≠ '/' ∧ c ≠ ':') →
        (∀ c ∈ arg, c ≠ '[' ∧ c ≠ '\x7b' ∧ c ≠ ')') →
        find_protected_indices
          (tokenize_preserving_tags ('[' :: (name ++ ']' :: ('(' :: arg)))) = []) ∧
      (∀ (tokens : List Tok) (vis prot : List ℕ) (L fuel start : ℕ) (acc : List ℕ),
        choose_split_token tokens vis start L prot = none →
        wrapLoop tokens vis prot L (fuel + 1) start acc = acc) := by
  refine ⟨find_protected_indicesC_eq, ?_, unmatched_construct_unprotected, ?_⟩
  · intro s prot start L
    apply choose_split_tokenC_eq
    intro x hx
    exact ((mem_visible_token_indices _ x).mp hx).1
  · intro tokens vis prot L fuel start acc h
    simp only [wrapLoop]
    split
    · rw [h]
    · rfl

/-- Witness for C9's components at concrete inputs. -/
theorem C9_error_free_witness :
    find_protected_indicesC (tokenize_preserving_tags "[x](abc".data) =
        some (find_protected_indices (tokenize_preserving_tags "[x](abc".data)) ∧
      choose_split_tokenC (tokenize_preserving_tags "ab".data)
          (visible_token_indices (tokenize_preserving_tags "ab".data)) 0 1 [] =
        some (choose_split_token (tokenize_preserving_tags "ab".data)
          (visible_token_indices (tokenize_preserving_tags "ab".data)) 0 1 []) ∧
      find_protected_indices
        (tokenize_preserving_tags ('[' :: ("x".data ++ ']' :: ('(' :: "abc".data)))) = [] ∧
      wrapLoop (tokenize_preserving_tags []) [] [] 5 (0 + 1) 0 [] = [] :=
  ⟨C9_error_free.1 _,
   C9_error_free.2.1 "ab".data [] 0 1,
   C9_error_free.2.2.1 "x".data "abc".data (by decide) (by decide) (by decide),
   C9_error_free.2.2.2 (tokenize_preserving_tags []) [] [] 5 0 0 [] (by decide)⟩

/-- A tier-2 candidate: a priority word together with a start position of one
of its occurrences in the window text. -/
def splitLocal (c : List Char × ℕ) : ℕ := c.2 + c.1.length

/-- The visible position a candidate splits after (source line 164:
`split_vis = start_vis + split_local - 1`). -/
def splitVis (s : ℕ) (c : List Char × ℕ) : ℕ := s + splitLocal c - 1

/-- The candidate score (source lines 173-175), in the ×5 integer scaling. -/
def candScore (tl : ℕ) (c : List Char × ℕ) : ℤ :=
  5 * |(splitLocal c : ℤ) - (tl : ℤ)| +
    (if splitLocal c ≤ tl then -1 else 0)

/-- A candidate passes tier 2's guards (source lines 164-171): its split
position is in range and unprotected. -/
def candOK (vis prot : List ℕ) (s : ℕ) (c : List Char × ℕ) : Prop :=
  ¬(splitVis s c < s ∨ vis.length ≤ splitVis s c) ∧ vis.getD (splitVis s c) 0 ∉ prot

/-- All candidates of all words of the list, in examination order. -/
def candList (vt : List Char) (words : List (List Char)) : List (List Char × ℕ) :=
  words.flatMap (fun w => (occurrences vt w).map (fun pos => (w, pos)))

/-- One tier-2 step, reformulated to act on a candidate pair. -/
def candStep (vis prot : List ℕ) (s tl : ℕ) (b : Option ℕ × ℤ) (c : List Char × ℕ) :
    Option ℕ × ℤ :=
  tier2_step vis prot s tl c.1.length b c.2

/-- The abstract candidate vocabulary agrees with `tier2_step` literally. -/
theorem candStep_eq (vis prot : List ℕ) (s tl : ℕ) (b : Option ℕ × ℤ) (c : List Char × ℕ) :
    candStep vis prot s tl b c =
      if splitVis s c < s ∨ vis.length ≤ splitVis s c then b
      else if vis.getD (splitVis s c) 0 ∈ prot then b
      else if candScore tl c < b.2 then (some (splitVis s c), candScore tl c) else b := rfl

/-- A tier-2 step either keeps the accumulator or adopts a passing candidate
that strictly improves the score. -/
theorem candStep_cases (vis prot : List ℕ) (s tl : ℕ) (b : Option ℕ × ℤ) (c : List Char × ℕ) :
    candStep vis prot s tl b c = b ∨
      (candOK vis prot s c ∧
        candStep vis prot s tl b c = (some (splitVis s c), candScore tl c) ∧
        candScore tl c < b.2) := by
  rw [candStep_eq]
  split_ifs with g1 g2 g3
  · exact Or.inl rfl
  · exact Or.inl rfl
  · exact Or.inr ⟨⟨g1, g2⟩, rfl, g3⟩
  · exact Or.inl rfl

/-- A tier-2 step never increases the best score. -/
theorem candStep_le (vis prot : List ℕ) (s tl : ℕ) (b : Option ℕ × ℤ) (c : List Char × ℕ) :
    (candStep vis prot s tl b c).2 ≤ b.2 := by
  rcases candStep_cases vis prot s tl b c with h | ⟨-, h, hlt⟩
  · rw [h]
  · rw [h]
    exact le_of_lt hlt

/-- After stepping on a passing candidate the best score is at most its score. -/
theorem candStep_at (vis prot : List ℕ) (s tl : ℕ) (b : Option ℕ × ℤ) (c : List Char × ℕ)
    (hok : candOK vis prot s c) :
    (candStep vis prot s tl b c).2 ≤ candScore tl c := by
  rw [candStep_eq]
  split_ifs with g1 g2 g3
  · exact absurd g1 hok.1
  · exact absurd g2 hok.2
  · exact le_rfl
  · exact le_of_not_lt g3

/-- Folding tier-2 steps never increases the best score. -/
theorem candfold_le (vis prot : List ℕ) (s tl : ℕ) :
    ∀ (CL : List (List Char × ℕ)) (b : Option ℕ × ℤ),
      (CL.foldl (candStep vis prot s tl) b).2 ≤ b.2 := by
  intro CL
  induction CL with
  | nil => intro b; exact le_rfl
  | cons c0 CL ih =>
    intro b
    rw [List.foldl_cons]
    exact le_trans (ih _) (candStep_le vis prot s tl b c0)

/-- The folded best score is at most the score of every passing candidate of
the list. -/
theorem candfold_min (vis prot : List ℕ) (s tl : ℕ) :
    ∀ (CL : List (List Char × ℕ)) (b : Option ℕ × ℤ) (c : List Char × ℕ), c ∈ CL →
      candOK vis prot s c → (CL.foldl (candStep vis prot s tl) b).2 ≤ candScore tl c := by
  intro CL
  induction CL with
  | nil =>
    intro b c hc
    exact absurd hc (List.not_mem_nil c)
  | cons c0 CL ih =>
    intro b c hc hok
    rw [List.foldl_cons]
    rcases List.mem_cons.mp hc with rfl | hmem
    · exact le_trans (candfold_le vis prot s tl CL _) (candStep_at vis prot s tl b c hok)
    · exact ih _ c hmem hok

/-- The fold either returns its initial accumulator or the split position and
score of some passing candidate of the list. -/
theorem candfold_sound (vis prot : List ℕ) (s tl : ℕ) :
    ∀ (CL : List (List Char × ℕ)) (b : Option ℕ × ℤ),
      CL.foldl (candStep vis prot s tl) b = b ∨
        ∃ c ∈ CL, candOK vis prot s c ∧
          CL.foldl (candStep vis prot s tl) b = (some (splitVis s c), candScore tl c) := by
  intro CL
  induction CL with
  | nil => intro b; exact Or.inl rfl
  | cons c0 CL ih =>
    intro b
    rw [List.foldl_cons]
    rcases ih (candStep vis prot s tl b c0) with hfold | ⟨c, hc, hok, hfold⟩
    · rw [hfold]
      rcases candStep_cases vis prot s tl b c0 with h | ⟨hok, h, -⟩
      · exact Or.inl h
      · exact Or.inr ⟨c0, List.mem_cons_self c0 CL, hok, h⟩
    · exact Or.inr ⟨c, List.mem_cons.mpr (Or.inr hc), hok, hfold⟩

/-- Nested word-and-occurrence folding equals one fold over the candidate
list. -/
theorem candfold_nested (vis prot : List ℕ) (s tl : ℕ) (vt : List Char) :
    ∀ (words : List (List Char)) (b : Option ℕ × ℤ),
      words.foldl
          (fun acc w => (occurrences vt w).foldl (tier2_step vis prot s tl w.length) acc) b =
        (candList vt words).foldl (candStep vis prot s tl) b := by
  intro words
  induction words with
  | nil => intro b; rfl
  | cons u ws ih =>
    intro b
    have hcl : candList vt (u :: ws) =
        ((occurrences vt u).map (fun pos => (u, pos))) ++ candList vt ws := rfl
    rw [List.foldl_cons, ih, hcl, List.foldl_append, List.foldl_map]
    rfl

/-- Tier 2 is exactly a fold over the candidate list of the window text. -/
theorem tier2_words_eq_candfold (words : List (List Char)) (tokens : List Tok)
    (vis prot : List ℕ) (s e w : ℕ) :
    tier2_words words tokens vis prot s e w =
      (candList (windowText tokens vis s w) words).foldl
        (candStep vis prot s (e - s)) (none, 5 * 10 ^ 9) := by
  simp only [tier2_words]
  exact candfold_nested vis prot s (e - s) (windowText tokens vis s w) words _

/-- Candidate-list membership means word membership plus an occurrence. -/
theorem mem_candList_iff (vt : List Char) (words : List (List Char)) (c : List Char × ℕ) :
    c ∈ candList vt words ↔ c.1 ∈ words ∧ c.2 ∈ occurrences vt c.1 := by
  constructor
  · intro hc
    simp only [candList, List.mem_flatMap, List.mem_map] at hc
    obtain ⟨w, hw, pos, hpos, heq⟩ := hc
    cases heq
    exact ⟨hw, hpos⟩
  · rintro ⟨h1, h2⟩
    simp only [candList, List.mem_flatMap, List.mem_map]
    exact ⟨c.1, h1, c.2, h2, rfl⟩

/-- Permuting the word list does not change which candidates exist. -/
theorem candList_perm_mem (vt : List Char) (words1 words2 : List (List Char))
    (hp : words1.Perm words2) (c : List Char × ℕ) :
    c ∈ candList vt words1 ↔ c ∈ candList vt words2 := by
  rw [mem_candList_iff, mem_candList_iff, hp.mem_iff]

/-- Every candidate ends inside the window text. -/
theorem splitLocal_le_of_mem (vt : List Char) (words : List (List Char)) (c : List Char × ℕ)
    (hc : c ∈ candList vt words) : splitLocal c ≤ vt.length := by
  obtain ⟨-, hocc⟩ := (mem_candList_iff vt words c).mp hc
  rw [occurrences] at hocc
  obtain ⟨hr, hpf⟩ := List.mem_filter.mp hocc
  have hr2 := List.mem_range.mp hr
  have hpre := List.isPrefixOf_iff_prefix.mp hpf
  have hple := hpre.length_le
  rw [List.length_drop] at hple
  simp only [splitLocal]
  omega

/-- Candidate scores are bounded by ten times any common bound on the split
position and the target. -/
theorem candScore_bound (tl B : ℕ) (c : List Char × ℕ) (hsl : splitLocal c ≤ B)
    (htl : tl ≤ B) : candScore tl c ≤ 10 * (B : ℤ) := by
  unfold candScore
  rcases abs_cases ((splitLocal c : ℤ) - (tl : ℤ)) with ⟨heq, hs⟩ | ⟨heq, hs⟩ <;>
    rw [heq] <;> split_ifs <;> omega

/-- Equal scores force equal split positions: the score determines
`split_local`, hence `split_vis`; so any tie-break among same-score
candidates yields the same split. -/
theorem candScore_inj (tl s0 : ℕ) (c c2 : List Char × ℕ)
    (h : candScore tl c = candScore tl c2) : splitVis s0 c = splitVis s0 c2 := by
  have hl : splitLocal c = splitLocal c2 := by
    unfold candScore at h
    rcases abs_cases ((splitLocal c : ℤ) - (tl : ℤ)) with ⟨heq1, hs1⟩ | ⟨heq1, hs1⟩ <;>
      rcases abs_cases ((splitLocal c2 : ℤ) - (tl : ℤ)) with ⟨heq2, hs2⟩ | ⟨heq2, hs2⟩ <;>
        rw [heq1, heq2] at h <;> split_ifs at h <;> omega
  simp only [splitVis, hl]

/-- A tier-2 `some` result is a passing candidate of minimal score. -/
theorem tier2_words_some_argmin (words : List (List Char)) (tokens : List Tok)
    (vis prot : List ℕ) (s e w : ℕ) (v : ℕ)
    (h : (tier2_words words tokens vis prot s e w).1 = some v) :
    ∃ c ∈ candList (windowText tokens vis s w) words,
      candOK vis prot s c ∧ v = splitVis s c ∧
        ∀ c2 ∈ candList (windowText tokens vis s w) words,
          candOK vis prot s c2 → candScore (e - s) c ≤ candScore (e - s) c2 := by
  rw [tier2_words_eq_candfold] at h
  rcases candfold_sound vis prot s (e - s) (candList (windowText tokens vis s w) words)
      (none, 5 * 10 ^ 9) with hfold | ⟨c, hc, hok, hfold⟩
  · rw [hfold] at h
    exact absurd h (by simp)
  · refine ⟨c, hc, hok, ?_, ?_⟩
    · rw [hfold] at h
      have h2 : some (splitVis s c) = some v := h
      exact (Option.some.inj h2).symm
    · intro c2 hc2 hok2
      have hmin := candfold_min vis prot s (e - s) (candList (windowText tokens vis s w) words)
        (none, 5 * 10 ^ 9) c2 hc2 hok2
      rw [hfold] at hmin
      exact hmin

/-- When every candidate scores below the initial best, a tier-2 `none`
result means no candidate passed the guards. -/
theorem tier2_words_none_complete (words : List (List Char)) (tokens : List Tok)
    (vis prot : List ℕ) (s e w : ℕ)
    (hbound : ∀ c ∈ candList (windowText tokens vis s w) words,
        candScore (e - s) c < 5 * 10 ^ 9)
    (h : (tier2_words words tokens vis prot s e w).1 = none) :
    ∀ c ∈ candList (windowText tokens vis s w) words, ¬ candOK vis prot s c := by
  intro c hc hok
  rw [tier2_words_eq_candfold] at h
  rcases candfold_sound vis prot s (e - s) (candList (windowText tokens vis s w) words)
      (none, 5 * 10 ^ 9) with hfold | ⟨c1, hc1, hok1, hfold⟩
  · have hmin := candfold_min vis prot s (e - s) (candList (windowText tokens vis s w) words)
      (none, 5 * 10 ^ 9) c hc hok
    rw [hfold] at hmin
    exact absurd (hbound c hc) (not_lt.mpr hmin)
  · rw [hfold] at h
    exact Option.some_ne_none (splitVis s c1) h

/-- Abbreviation: the visible-index list of a tokenized segment. -/
def segVis (s : List Char) : List ℕ := visible_token_indices (tokenize_preserving_tags s)

/-- Abbreviation: the window text tier 2 searches for a segment. -/
def tier2Window (s : List Char) (start max_len : ℕ) : List Char :=
  windowText (tokenize_preserving_tags s) (segVis s) start (window_end (segVis s) start max_len)

/-- Abbreviation: the candidate list tier 2 examines for a segment. -/
def tier2Cands (s : List Char) (start max_len : ℕ) (words : List (List Char)) :
    List (List Char × ℕ) :=
  candList (tier2Window s start max_len) words

/-- Abbreviation: the tier-2 result position for a segment and a word list. -/
def tier2Run (s : List Char) (prot : List ℕ) (start max_len : ℕ)
    (words : List (List Char)) : Option ℕ :=
  (tier2_words words (tokenize_preserving_tags s) (segVis s) prot start
    (end_vis (segVis s) start max_len) (window_end (segVis s) start max_len)).1

/-- On a tokenized segment, every candidate scores below the initial best
(window text is short, so scores stay far below the 5·10⁹ sentinel). -/
theorem candScore_lt_init (s : List Char) (start max_len : ℕ) (hml : max_len ≤ 10 ^ 8)
    (words : List (List Char)) (c : List Char × ℕ)
    (hc : c ∈ tier2Cands s start max_len words) :
    candScore (end_vis (segVis s) start max_len - start) c < 5 * 10 ^ 9 := by
  have hvt : (tier2Window s start max_len).length =
      window_end (segVis s) start max_len - start := by
    simp only [tier2Window, segVis]
    exact windowText_length _ start _ (fun t ht => (tokenize_shape s t ht).2)
      (Nat.min_le_left _ _)
  have hsl := splitLocal_le_of_mem (tier2Window s start max_len) words c hc
  rw [hvt] at hsl
  have hwb : window_end (segVis s) start max_len - start ≤ max_len + 8 := by
    rw [window_end, end_vis]
    omega
  have htl : end_vis (segVis s) start max_len - start ≤ max_len + 8 := by
    rw [end_vis]
    omega
  have hb := candScore_bound (end_vis (segVis s) start max_len - start) (max_len + 8) c
    (le_trans hsl hwb) htl
  have e2 : (10 : ℕ) ^ 8 = 100000000 := by norm_num
  rw [e2] at hml
  refine lt_of_le_of_lt hb ?_
  have e1 : (5 : ℤ) * 10 ^ 9 = 5000000000 := by norm_num
  rw [e1]
  push_cast
  omega

/-- C7: when tier 2 (the semantic-word tier) returns a split position, that
position comes from a guard-passing candidate — an occurrence of a priority
word in the window text — of minimal score among ALL occurrences of ALL
priority words scored together (score: distance of the position after the
word from the target boundary, with a bonus for positions at or before it,
in the ×5 integer scaling); when it returns none, no occurrence of any
priority word passes the guards; equal scores force equal split positions,
so the left-to-right first-match-wins tie-break never affects the chosen
position; and the tier-2 result is invariant under permuting the priority
word list. -/
theorem C7_tier2_argmin_order (s : List Char) (prot : List ℕ) (start max_len : ℕ)
    (hml : max_len ≤ 10 ^ 8) :
    (∀ v, tier2Run s prot start max_len PRIORITY_SPLIT_WORDS = some v →
        ∃ c ∈ tier2Cands s start max_len PRIORITY_SPLIT_WORDS,
          candOK (segVis s) prot start c ∧ v = splitVis start c ∧
            ∀ c2 ∈ tier2Cands s start max_len PRIORITY_SPLIT_WORDS,
              candOK (segVis s) prot start c2 →
                candScore (end_vis (segVis s) start max_len - start) c ≤
                  candScore (end_vis (segVis s) start max_len - start) c2) ∧
      (tier2Run s prot start max_len PRIORITY_SPLIT_WORDS = none →
        ∀ c ∈ tier2Cands s start max_len PRIORITY_SPLIT_WORDS,
          ¬ candOK (segVis s) prot start c) ∧
      (∀ c c2 : List Char × ℕ,
        candScore (end_vis (segVis s) start max_len - start) c =
            candScore (end_vis (segVis s) start max_len - start) c2 →
          splitVis start c = splitVis start c2) ∧
      ∀ words2 : List (List Char), words2.Perm PRIORITY_SPLIT_WORDS →
        tier2Run s prot start max_len words2 =
          tier2Run s prot start max_len PRIORITY_SPLIT_WORDS := by
  refine ⟨?_, ?_, ?_, ?_⟩
  · intro v hv
    simp only [tier2Run] at hv
    simp only [tier2Cands, tier2Window]
    exact tier2_words_some_argmin PRIORITY_SPLIT_WORDS (tokenize_preserving_tags s)
      (segVis s) prot start (end_vis (segVis s) start max_len)
      (window_end (segVis s) start max_len) v hv
  · intro hnone
    simp only [tier2Run] at hnone
    simp only [tier2Cands, tier2Window]
    exact tier2_words_none_complete PRIORITY_SPLIT_WORDS (tokenize_preserving_tags s)
      (segVis s) prot start (end_vis (segVis s) start max_len)
      (window_end (segVis s) start max_len)
      (fun c hc => candScore_lt_init s start max_len hml PRIORITY_SPLIT_WORDS c hc) hnone
  · intro c c2 h
    exact candScore_inj (end_vis (segVis s) start max_len - start) start c c2 h
  · intro words2 hperm
    simp only [tier2Run]
    cases hmain : (tier2_words PRIORITY_SPLIT_WORDS (tokenize_preserving_tags s) (segVis s)
        prot start (end_vis (segVis s) start max_len)
        (window_end (segVis s) start max_len)).1 with
    | none =>
      cases h2 : (tier2_words words2 (tokenize_preserving_tags s) (segVis s)
          prot start (end_vis (segVis s) start max_len)
          (window_end (segVis s) start max_len)).1 with
      | none => rfl
      | some v2 =>
        exfalso
        obtain ⟨c2, hc2, hok2, -, -⟩ := tier2_words_some_argmin words2
          (tokenize_preserving_tags s) (segVis s) prot start
          (end_vis (segVis s) start max_len) (window_end (segVis s) start max_len) v2 h2
        have hc2m : c2 ∈ candList (windowText (tokenize_preserving_tags s) (segVis s) start
            (window_end (segVis s) start max_len)) PRIORITY_SPLIT_WORDS :=
          (candList_perm_mem _ words2 PRIORITY_SPLIT_WORDS hperm c2).mp hc2
        exact tier2_words_none_complete PRIORITY_SPLIT_WORDS (tokenize_preserving_tags s)
          (segVis s) prot start (end_vis (segVis s) start max_len)
          (window_end (segVis s) start max_len)
          (fun c hc => candScore_lt_init s start max_len hml PRIORITY_SPLIT_WORDS c hc)
          hmain c2 hc2m hok2
    | some v1 =>
      cases h2 : (tier2_words words2 (tokenize_preserving_tags s) (segVis s)
          prot start (end_vis (segVis s) start max_len)
          (window_end (segVis s) start max_len)).1 with
      | none =>
        exfalso
        obtain ⟨c1, hc1, hok1, -, -⟩ := tier2_words_some_argmin PRIORITY_SPLIT_WORDS
          (tokenize_preserving_tags s) (segVis s) prot start
          (end_vis (segVis s) start max_len) (window_end (segVis s) start max_len) v1 hmain
        have hc1m : c1 ∈ candList (windowText (tokenize_preserving_tags s) (segVis s) start
            (window_end (segVis s) start max_len)) words2 :=
          (candList_perm_mem _ words2 PRIORITY_SPLIT_WORDS hperm c1).mpr hc1
        exact tier2_words_none_complete words2 (tokenize_preserving_tags s)
          (segVis s) prot start (end_vis (segVis s) start max_len)
          (window_end (segVis s) start max_len)
          (fun c hc => candScore_lt_init s start max_len hml words2 c hc)
          h2 c1 hc1m hok1
      | some v2 =>
        obtain ⟨c1, hc1, hok1, hv1, hmin1⟩ := tier2_words_some_argmin PRIORITY_SPLIT_WORDS
          (tokenize_preserving_tags s) (segVis s) prot start
          (end_vis (segVis s) start max_len) (window_end (segVis s) start max_len) v1 hmain
        obtain ⟨c2, hc2, hok2, hv2, hmin2⟩ := tier2_words_some_argmin words2
          (tokenize_preserving_tags s) (segVis s) prot start
          (end_vis (segVis s) start max_len) (window_end (segVis s) start max_len) v2 h2
        have hc2m : c2 ∈ candList (windowText (tokenize_preserving_tags s) (segVis s) start
            (window_end (segVis s) start max_len)) PRIORITY_SPLIT_WORDS :=
          (candList_perm_mem _ words2 PRIORITY_SPLIT_WORDS hperm c2).mp hc2
        have hc1m : c1 ∈ candList (windowText (tokenize_preserving_tags s) (segVis s) start
            (window_end (segVis s) start max_len)) words2 :=
          (candList_perm_mem _ words2 PRIORITY_SPLIT_WORDS hperm c1).mpr hc1
        have hle1 := hmin1 c2 hc2m hok2
        have hle2 := hmin2 c1 hc1m hok1
        have hsc : candScore (end_vis (segVis s) start max_len - start) c1 =
            candScore (end_vis (segVis s) start max_len - start) c2 :=
          le_antisymm hle1 hle2
        have hsv := candScore_inj (end_vis (segVis s) start max_len - start) start c1 c2 hsc
        rw [hv1, hv2, hsv]

/-- Witness for C7 on `"ab并且cdefgh"` with cursor 0 and maximum length 4:
tier 2 returns visible position 3 (after `并且`), which is a minimal-score
passing candidate, and reversing the priority word list gives the same
result. -/
theorem C7_tier2_argmin_order_witness :
    (∃ c ∈ tier2Cands "ab并且cdefgh".data 0 4 PRIORITY_SPLIT_WORDS,
        candOK (segVis "ab并且cdefgh".data) [] 0 c ∧ 3 = splitVis 0 c ∧
          ∀ c2 ∈ tier2Cands "ab并且cdefgh".data 0 4 PRIORITY_SPLIT_WORDS,
            candOK (segVis "ab并且cdefgh".data) [] 0 c2 →
              candScore (end_vis (segVis "ab并且cdefgh".data) 0 4 - 0) c ≤
                candScore (end_vis (segVis "ab并且cdefgh".data) 0 4 - 0) c2) ∧
      tier2Run "ab并且cdefgh".data [] 0 4 PRIORITY_SPLIT_WORDS.reverse =
        tier2Run "ab并且cdefgh".data [] 0 4 PRIORITY_SPLIT_WORDS :=
  ⟨(C7_tier2_argmin_order "ab并且cdefgh".data [] 0 4 (by decide)).1 3 (by decide),
   (C7_tier2_argmin_order "ab并且cdefgh".data [] 0 4 (by decide)).2.2.2
     PRIORITY_SPLIT_WORDS.reverse (List.reverse_perm PRIORITY_SPLIT_WORDS)⟩

end AutoWrap
